import Mathlib

/-! A verification development for a discrete-event task-graph scheduling
simulator.  The Python sources are embedded shallowly: classes become
structures, object references become indices into explicit heaps, Python
sets become insertion-ordered duplicate-free lists (only membership is ever
observed), dictionaries become association lists with upsert-in-place
semantics, and numeric values are modelled as integers (only their sign and
equality matter for the properties proved here).  Fallible code returns
`Except`, carrying the program state at the point of the raise where the
claims talk about it. -/

namespace Schedsim

/-- Embedding of `TaskOutput` (`schedsim/common/task.py`).  Python object
identity is replaced by an index (a reference) into the graph's output
heap; the `id` field is the mutable `.id` attribute (`none` until a graph
assigns it).  `consumers` is the set of consumer tasks, modelled as an
insertion-ordered list of task references. -/
structure TaskOutput where
  id : Option Nat
  size : Int
  expectedSize : Option Int
  parent : Option Nat
  consumers : List Nat
deriving DecidableEq, Inhabited

/-- Embedding of `Task` (`schedsim/common/task.py`): `inputs` and `outputs`
hold references into the output heap of the enclosing graph. -/
structure Task where
  id : Option Nat
  duration : Int
  expectedDuration : Option Int
  cpus : Int
  inputs : List Nat
  outputs : List Nat
deriving DecidableEq, Inhabited

/-- Embedding of `TaskGraph` (`schedsim/common/taskgraph.py`).  `taskHeap`
and `outputHeap` play the role of the Python heap: every `Task` /
`TaskOutput` object that exists is a cell in them, and the graph's `tasks`
and `outputs` lists hold references. -/
structure TaskGraph where
  taskHeap : List Task
  outputHeap : List TaskOutput
  tasks : List Nat
  outputs : List Nat
deriving DecidableEq, Inhabited

attribute [ext] TaskOutput Task TaskGraph

/-- Dereference a task. -/
def getTask (g : TaskGraph) (r : Nat) : Task := g.taskHeap.getD r default

/-- Dereference a data object. -/
def getOutput (g : TaskGraph) (r : Nat) : TaskOutput := g.outputHeap.getD r default

/-- Embedding of the `Task.output` property (`schedsim/common/task.py`):
returns the unique output, and raises when there is none or more than
one. -/
def Task.output (t : Task) : Except String Nat :=
  if t.outputs = [] then .error "Task has no output"
  else if 1 < t.outputs.length then .error "Task has no unique output"
  else .ok (t.outputs.headD 0)

/-- The sort key used by `Task.normalize`: the `.id` attribute of the
referenced data object (graphs always assign ids before `normalize` is
used; `getD 0` totalises the lookup). -/
def sortKey (g : TaskGraph) (r : Nat) : Nat := ((getOutput g r).id).getD 0

/-- Embedding of `Task.normalize` (`schedsim/common/task.py`):
`inputs = list(set(inputs))` followed by an id-keyed sort. -/
def Task.normalize (g : TaskGraph) (t : Task) : Task :=
  { t with inputs :=
      (t.inputs.dedup).insertionSort (fun a b => sortKey g a ≤ sortKey g b) }

/-- The successor tasks of task `r`: the consumers of its outputs, in the
order walked by `Task.is_predecessor_of`. -/
def succs (g : TaskGraph) (r : Nat) : List Nat :=
  (getTask g r).outputs.flatMap (fun o => (getOutput g o).consumers)

/-- One edge of the descendant relation: `b` consumes an output of `a`. -/
def StepRel (g : TaskGraph) (a b : Nat) : Prop := b ∈ succs g a

/-- The inner loop body of `Task.is_predecessor_of`
(`schedsim/common/task.py:136-144`): walk a successor list, skipping tasks
already in `descendants` (`ds`), returning `none` as soon as the target is
found, and otherwise adding each new task to `descendants` and to `new`
(`acc`). -/
def bfsVisit (target : Nat) (ds acc : List Nat) : List Nat → Option (List Nat × List Nat)
  | [] => some (ds, acc)
  | d :: rest =>
    if d ∈ ds then bfsVisit target ds acc rest
    else if d = target then none
    else bfsVisit target (d :: ds) (acc ++ [d]) rest

/-- One round of `Task.is_predecessor_of`: process every task of the
current `explore` list. -/
def bfsRound (g : TaskGraph) (target : Nat) (ds acc : List Nat) :
    List Nat → Option (List Nat × List Nat)
  | [] => some (ds, acc)
  | x :: rest =>
    match bfsVisit target ds acc (succs g x) with
    | none => none
    | some (ds', acc') => bfsRound g target ds' acc' rest

/-- The `while explore:` loop of `Task.is_predecessor_of`, driven by fuel.
The Python loop terminates because `descendants` only grows; `fuelBound`
fuel is enough (`isPredecessorOf_iff` proves the search exact). -/
def bfsLoop (g : TaskGraph) (target : Nat) : Nat → List Nat → List Nat → Bool
  | 0, _, _ => false
  | fuel + 1, ds, explore =>
    if explore = [] then false
    else
      match bfsRound g target ds [] explore with
      | none => true
      | some (ds', new) => bfsLoop g target fuel ds' new

/-- Every consumer entry of the graph, with multiplicity. -/
def allConsumers (g : TaskGraph) : List Nat :=
  g.outputHeap.flatMap (fun o => o.consumers)

/-- Enough fuel for the search to saturate. -/
def fuelBound (g : TaskGraph) : Nat := (allConsumers g).length + 2

/-- Embedding of `Task.is_predecessor_of` (`schedsim/common/task.py`):
breadth-first search over the consumer relation. -/
def isPredecessorOf (g : TaskGraph) (s t : Nat) : Bool :=
  bfsLoop g t (fuelBound g) [] [s]

lemma bfsVisit_none_mem {target : Nat} :
    ∀ {L ds acc}, bfsVisit target ds acc L = none → target ∈ L := by
  intro L
  induction L with
  | nil => intro ds acc h; cases h
  | cons d rest ih =>
    intro ds acc h
    unfold bfsVisit at h
    by_cases hd : d ∈ ds
    · rw [if_pos hd] at h
      exact List.mem_cons_of_mem _ (ih h)
    · rw [if_neg hd] at h
      by_cases hdt : d = target
      · exact hdt ▸ List.mem_cons_self _ _
      · rw [if_neg hdt] at h
        exact List.mem_cons_of_mem _ (ih h)

lemma bfsVisit_some_spec {target : Nat} :
    ∀ {L ds acc ds' acc'}, bfsVisit target ds acc L = some (ds', acc') →
      (∀ z ∈ ds, z ∈ ds') ∧ (∀ z ∈ acc, z ∈ acc')
      ∧ (∀ z ∈ ds', z ∈ ds ∨ z ∈ acc')
      ∧ (∀ d ∈ L, d ∈ ds')
      ∧ (target ∉ ds → target ∉ ds' ∧ target ∉ L)
      ∧ (∀ z ∈ acc', z ∈ acc ∨ z ∈ L) := by
  intro L
  induction L with
  | nil =>
    intro ds acc ds' acc' h
    cases h
    exact ⟨fun z hz => hz, fun z hz => hz, fun z hz => Or.inl hz,
      by simp, fun ht => ⟨ht, by simp⟩, fun z hz => Or.inl hz⟩
  | cons d rest ih =>
    intro ds acc ds' acc' h
    unfold bfsVisit at h
    by_cases hd : d ∈ ds
    · rw [if_pos hd] at h
      obtain ⟨i1, i2, i3, i4, i5, i6⟩ := ih h
      refine ⟨i1, i2, i3, ?_, ?_, ?_⟩
      · intro x hx
        rcases List.mem_cons.mp hx with hx | hx
        · subst hx; exact i1 x hd
        · exact i4 x hx
      · intro ht
        obtain ⟨h1, h2⟩ := i5 ht
        refine ⟨h1, fun hc => ?_⟩
        rcases List.mem_cons.mp hc with hc | hc
        · exact ht (hc ▸ hd)
        · exact h2 hc
      · intro z hz
        rcases i6 z hz with hx | hx
        · exact Or.inl hx
        · exact Or.inr (List.mem_cons_of_mem _ hx)
    · rw [if_neg hd] at h
      by_cases hdt : d = target
      · rw [if_pos hdt] at h; cases h
      · rw [if_neg hdt] at h
        obtain ⟨i1, i2, i3, i4, i5, i6⟩ := ih h
        refine ⟨?_, ?_, ?_, ?_, ?_, ?_⟩
        · exact fun z hz => i1 z (List.mem_cons_of_mem _ hz)
        · exact fun z hz => i2 z (List.mem_append_left _ hz)
        · intro z hz
          rcases i3 z hz with hx | hx
          · rcases List.mem_cons.mp hx with hx | hx
            · exact Or.inr (i2 z (by simp [hx]))
            · exact Or.inl hx
          · exact Or.inr hx
        · intro x hx
          rcases List.mem_cons.mp hx with hx | hx
          · subst hx; exact i1 x (List.mem_cons_self _ _)
          · exact i4 x hx
        · intro ht
          have ht2 : target ∉ d :: ds := by
            intro hc
            rcases List.mem_cons.mp hc with hc | hc
            · exact hdt hc.symm
            · exact ht hc
          obtain ⟨h1, h2⟩ := i5 ht2
          refine ⟨h1, fun hc => ?_⟩
          rcases List.mem_cons.mp hc with hc | hc
          · exact hdt hc.symm
          · exact h2 hc
        · intro z hz
          rcases i6 z hz with hx | hx
          · rcases List.mem_append.mp hx with hx | hx
            · exact Or.inl hx
            · exact Or.inr (by simp [List.mem_singleton.mp hx])
          · exact Or.inr (List.mem_cons_of_mem _ hx)

lemma bfsRound_none_mem {g : TaskGraph} {target : Nat} :
    ∀ {explore ds acc}, bfsRound g target ds acc explore = none →
      ∃ x ∈ explore, target ∈ succs g x := by
  intro explore
  induction explore with
  | nil => intro ds acc h; cases h
  | cons x rest ih =>
    intro ds acc h
    unfold bfsRound at h
    cases hv : bfsVisit target ds acc (succs g x) with
    | none => exact ⟨x, List.mem_cons_self _ _, bfsVisit_none_mem hv⟩
    | some p =>
      rw [hv] at h
      obtain ⟨y, hy, hys⟩ := ih h
      exact ⟨y, List.mem_cons_of_mem _ hy, hys⟩

lemma bfsRound_some_spec {g : TaskGraph} {target : Nat} :
    ∀ {explore ds acc ds' acc'},
      bfsRound g target ds acc explore = some (ds', acc') →
      (∀ z ∈ ds, z ∈ ds') ∧ (∀ z ∈ acc, z ∈ acc')
      ∧ (∀ z ∈ ds', z ∈ ds ∨ z ∈ acc')
      ∧ (∀ x ∈ explore, ∀ d ∈ succs g x, d ∈ ds')
      ∧ (target ∉ ds → target ∉ ds' ∧ ∀ x ∈ explore, target ∉ succs g x)
      ∧ (∀ z ∈ acc', z ∈ acc ∨ ∃ x ∈ explore, z ∈ succs g x) := by
  intro explore
  induction explore with
  | nil =>
    intro ds acc ds' acc' h
    cases h
    exact ⟨fun z hz => hz, fun z hz => hz, fun z hz => Or.inl hz,
      by simp, fun ht => ⟨ht, by simp⟩, fun z hz => Or.inl hz⟩
  | cons x rest ih =>
    intro ds acc ds' acc' h
    unfold bfsRound at h
    cases hv : bfsVisit target ds acc (succs g x) with
    | none => rw [hv] at h; cases h
    | some p =>
      obtain ⟨ds1, acc1⟩ := p
      rw [hv] at h
      obtain ⟨v1, v2, v3, v4, v5, v6⟩ := bfsVisit_some_spec hv
      obtain ⟨i1, i2, i3, i4, i5, i6⟩ := ih h
      refine ⟨?_, ?_, ?_, ?_, ?_, ?_⟩
      · exact fun z hz => i1 z (v1 z hz)
      · exact fun z hz => i2 z (v2 z hz)
      · intro z hz
        rcases i3 z hz with hx | hx
        · rcases v3 z hx with hy | hy
          · exact Or.inl hy
          · exact Or.inr (i2 z hy)
        · exact Or.inr hx
      · intro y hy d hdy
        rcases List.mem_cons.mp hy with hy | hy
        · subst hy; exact i1 d (v4 d hdy)
        · exact i4 y hy d hdy
      · intro ht
        obtain ⟨h1, h2⟩ := v5 ht
        obtain ⟨h3, h4⟩ := i5 h1
        refine ⟨h3, fun y hy => ?_⟩
        rcases List.mem_cons.mp hy with hy | hy
        · subst hy; exact h2
        · exact h4 y hy
      · intro z hz
        rcases i6 z hz with hx | hx
        · rcases v6 z hx with hy | hy
          · exact Or.inl hy
          · exact Or.inr ⟨x, List.mem_cons_self _ _, hy⟩
        · obtain ⟨y, hy, hys⟩ := hx
          exact Or.inr ⟨y, List.mem_cons_of_mem _ hy, hys⟩

lemma bfsLoop_sound (g : TaskGraph) (s0 target : Nat) :
    ∀ fuel ds explore,
      (∀ z ∈ explore, Relation.ReflTransGen (StepRel g) s0 z) →
      (∀ z ∈ ds, Relation.ReflTransGen (StepRel g) s0 z) →
      bfsLoop g target fuel ds explore = true →
      Relation.TransGen (StepRel g) s0 target := by
  intro fuel
  induction fuel with
  | zero => intro ds explore _ _ h; cases h
  | succ fuel ih =>
    intro ds explore hexp hds h
    unfold bfsLoop at h
    by_cases hne : explore = []
    · rw [if_pos hne] at h; cases h
    · rw [if_neg hne] at h
      cases hr : bfsRound g target ds [] explore with
      | none =>
        obtain ⟨x, hx, hxs⟩ := bfsRound_none_mem hr
        exact Relation.TransGen.tail' (hexp x hx) hxs
      | some p =>
        obtain ⟨ds', new⟩ := p
        rw [hr] at h
        obtain ⟨r1, _, r3, _, _, r6⟩ := bfsRound_some_spec hr
        have hnew : ∀ z ∈ new, Relation.ReflTransGen (StepRel g) s0 z := by
          intro z hz
          rcases r6 z hz with hx | hx
          · cases hx
          · obtain ⟨x, hx, hxs⟩ := hx
            exact Relation.ReflTransGen.tail (hexp x hx) hxs
        have hds' : ∀ z ∈ ds', Relation.ReflTransGen (StepRel g) s0 z := by
          intro z hz
          rcases r3 z hz with hx | hx
          · exact hds z hx
          · exact hnew z hx
        exact ih ds' new hnew hds' h

/-- A path of the consumer relation: `IsPath g x l y` says `x` steps
through the tasks of `l` and then to `y`. -/
def IsPath (g : TaskGraph) : Nat → List Nat → Nat → Prop
  | x, [], y => StepRel g x y
  | x, z :: l, y => StepRel g x z ∧ IsPath g z l y

lemma isPath_snoc {g : TaskGraph} :
    ∀ {l x y c}, IsPath g x l y → StepRel g y c → IsPath g x (l ++ [y]) c := by
  intro l
  induction l with
  | nil => intro x y c h hc; exact ⟨h, hc⟩
  | cons z l ih => intro x y c h hc; exact ⟨h.1, ih h.2 hc⟩

lemma transGen_iff_exists_path (g : TaskGraph) (x y : Nat) :
    Relation.TransGen (StepRel g) x y ↔ ∃ l, IsPath g x l y := by
  constructor
  · intro h
    induction h with
    | single h => exact ⟨[], h⟩
    | tail _ h2 ih =>
      obtain ⟨l, hp⟩ := ih
      exact ⟨l ++ [_], isPath_snoc hp h2⟩
  · rintro ⟨l, hp⟩
    induction l generalizing x with
    | nil => exact Relation.TransGen.single hp
    | cons z l ih => exact Relation.TransGen.head hp.1 (ih _ hp.2)

lemma isPath_append_split {g : TaskGraph} :
    ∀ {l1 x z l2 y}, IsPath g x (l1 ++ z :: l2) y →
      IsPath g x l1 z ∧ IsPath g z l2 y := by
  intro l1
  induction l1 with
  | nil => intro x z l2 y h; exact ⟨h.1, h.2⟩
  | cons a l1 ih =>
    intro x z l2 y h
    obtain ⟨h1, h2⟩ := h
    obtain ⟨h3, h4⟩ := ih h2
    exact ⟨⟨h1, h3⟩, h4⟩

lemma isPath_glue {g : TaskGraph} :
    ∀ {l1 x z l2 y}, IsPath g x l1 z → IsPath g z l2 y →
      IsPath g x (l1 ++ z :: l2) y := by
  intro l1
  induction l1 with
  | nil => intro x z l2 y h1 h2; exact ⟨h1, h2⟩
  | cons a l1 ih =>
    intro x z l2 y h1 h2
    exact ⟨h1.1, ih h1.2 h2⟩

lemma not_nodup_split {l : List Nat} (h : ¬ l.Nodup) :
    ∃ z l1 l2 l3, l = l1 ++ z :: l2 ++ z :: l3 := by
  induction l with
  | nil => exact absurd List.nodup_nil h
  | cons a rest ih =>
    by_cases ha : a ∈ rest
    · obtain ⟨s, t, hst⟩ := List.append_of_mem ha
      exact ⟨a, [], s, t, by simp [hst]⟩
    · have hrest : ¬ rest.Nodup := fun hn => h (List.nodup_cons.mpr ⟨ha, hn⟩)
      obtain ⟨z, l1, l2, l3, heq⟩ := ih hrest
      exact ⟨z, a :: l1, l2, l3, by simp [heq]⟩

lemma exists_last_split {P : Nat → Prop} [DecidablePred P] :
    ∀ (l : List Nat), (∃ z ∈ l, P z) →
      ∃ l1 z l2, l = l1 ++ z :: l2 ∧ P z ∧ ∀ y ∈ l2, ¬ P y := by
  intro l
  induction l with
  | nil => rintro ⟨z, hz, _⟩; cases hz
  | cons a rest ih =>
    rintro ⟨z, hz, hPz⟩
    by_cases hex : ∃ w ∈ rest, P w
    · obtain ⟨l1, w, l2, heq, hw, hl2⟩ := ih hex
      exact ⟨a :: l1, w, l2, by rw [heq]; rfl, hw, hl2⟩
    · have hPa : P a := by
        rcases List.mem_cons.mp hz with hc | hc
        · exact hc ▸ hPz
        · exact absurd ⟨z, hc, hPz⟩ hex
      exact ⟨[], a, rest, rfl, hPa, fun y hy hPy => hex ⟨y, hy, hPy⟩⟩

lemma exists_nodup_path {g : TaskGraph} {target : Nat} :
    ∀ n {x l}, l.length ≤ n → IsPath g x l target →
      ∃ l2, IsPath g x l2 target ∧ l2.length ≤ l.length ∧ (l2 ++ [target]).Nodup := by
  intro n
  induction n with
  | zero =>
    intro x l hl hp
    have : l = [] := List.length_eq_zero.mp (Nat.le_zero.mp hl)
    subst this
    exact ⟨[], hp, le_rfl, by simp⟩
  | succ n ih =>
    intro x l hl hp
    by_cases hnd : (l ++ [target]).Nodup
    · exact ⟨l, hp, le_rfl, hnd⟩
    · by_cases hmem : target ∈ l
      · obtain ⟨s, t, hst⟩ := List.append_of_mem hmem
        subst hst
        obtain ⟨hpre, _⟩ := isPath_append_split hp
        obtain ⟨l2, hp2, hle2, hnd2⟩ := ih (x := x) (l := s)
          (by simp at hl ⊢; omega) hpre
        exact ⟨l2, hp2, by simp; omega, hnd2⟩
      · by_cases hldup : l.Nodup
        · exfalso
          apply hnd
          rw [List.nodup_append]
          exact ⟨hldup, by simp, by
            intro a ha hb
            rw [List.mem_singleton] at hb
            exact hmem (hb ▸ ha)⟩
        · obtain ⟨z, l1, l2, l3, heq⟩ := not_nodup_split hldup
          subst heq
          obtain ⟨hpre, hsuf⟩ := isPath_append_split hp
          obtain ⟨hpre2, _⟩ := isPath_append_split hpre
          have hglue : IsPath g x (l1 ++ z :: l3) target := isPath_glue hpre2 hsuf
          obtain ⟨lr, hpr, hler, hndr⟩ := ih (x := x) (l := l1 ++ z :: l3)
            (by simp at hl ⊢; omega) hglue
          exact ⟨lr, hpr, by simp at hler ⊢; omega, hndr⟩

lemma succs_subset_allConsumers {g : TaskGraph} {x d : Nat} (h : d ∈ succs g x) :
    d ∈ allConsumers g := by
  unfold succs at h
  rw [List.mem_flatMap] at h
  obtain ⟨o, _, hd⟩ := h
  unfold getOutput at hd
  rw [List.getD_eq_getElem?_getD] at hd
  cases helem : g.outputHeap[o]? with
  | none =>
    rw [helem] at hd
    exact absurd hd (by simp [show (default : TaskOutput).consumers = [] from rfl])
  | some out =>
    rw [helem] at hd
    unfold allConsumers
    rw [List.mem_flatMap]
    exact ⟨out, List.getElem?_mem helem, hd⟩

lemma path_subset_allConsumers {g : TaskGraph} :
    ∀ {l x y}, IsPath g x l y →
      (∀ z ∈ l, z ∈ allConsumers g) ∧ y ∈ allConsumers g := by
  intro l
  induction l with
  | nil =>
    intro x y h
    exact ⟨by simp, succs_subset_allConsumers h⟩
  | cons z l ih =>
    intro x y h
    obtain ⟨h1, h2⟩ := h
    obtain ⟨hall, hy⟩ := ih h2
    refine ⟨?_, hy⟩
    intro w hw
    rcases List.mem_cons.mp hw with hw | hw
    · exact hw ▸ succs_subset_allConsumers h1
    · exact hall w hw

lemma nodup_length_le {l1 l2 : List Nat} (hnd : l1.Nodup)
    (hsub : ∀ z ∈ l1, z ∈ l2) : l1.length ≤ l2.length := by
  calc l1.length = l1.toFinset.card := (List.toFinset_card_of_nodup hnd).symm
    _ ≤ l2.toFinset.card := Finset.card_le_card (by
        intro z hz
        rw [List.mem_toFinset] at hz ⊢
        exact hsub z hz)
    _ ≤ l2.length := l2.toFinset_card_le

lemma bfs_complete (g : TaskGraph) (target : Nat) :
    ∀ m fuel ds explore x l, x ∈ explore → IsPath g x l target →
      (∀ z ∈ l, z ∉ ds) → target ∉ ds → l.length ≤ m → m + 2 ≤ fuel →
      bfsLoop g target fuel ds explore = true := by
  intro m
  induction m using Nat.strong_induction_on with
  | _ m ih =>
    intro fuel ds explore x l hx hp hlds htds hlm hfuel
    obtain ⟨fuel2, rfl⟩ : ∃ f, fuel = f + 1 := ⟨fuel - 1, by omega⟩
    unfold bfsLoop
    rw [if_neg (by intro hc; rw [hc] at hx; cases hx)]
    cases hr : bfsRound g target ds [] explore with
    | none => rfl
    | some p =>
      obtain ⟨ds', new⟩ := p
      obtain ⟨r1, _, r3, r4, r5, _⟩ := bfsRound_some_spec hr
      obtain ⟨rtds, rtsuccs⟩ := r5 htds
      cases l with
      | nil => exact absurd hp (rtsuccs x hx)
      | cons z1 lr =>
        have hz1new : z1 ∈ new := by
          have hz1 : z1 ∈ ds' := r4 x hx z1 hp.1
          rcases r3 z1 hz1 with hc | hc
          · exact absurd hc (hlds z1 (by simp))
          · exact hc
        obtain ⟨l1, zj, l2, heq, hzj, hl2⟩ :=
          exists_last_split (P := fun z => z ∈ new) (z1 :: lr) ⟨z1, by simp, hz1new⟩
        have hsplit := isPath_append_split (heq ▸ hp)
        have hlen : l1.length + 1 + l2.length = lr.length + 1 := by
          have := congrArg List.length heq
          simp at this
          omega
        refine ih (m - 1) (by
            have : 1 ≤ lr.length + 1 := by omega
            simp at hlm
            omega)
          fuel2 ds' new zj l2 hzj hsplit.2 ?_ rtds ?_ ?_
        · intro w hw hwds
          rcases r3 w hwds with hc | hc
          · refine hlds w ?_ hc
            rw [heq]
            exact List.mem_append_right _ (List.mem_cons_of_mem _ hw)
          · exact hl2 w hw hc
        · simp at hlm
          omega
        · simp at hlm
          omega

/-- `Task.is_predecessor_of` is exactly transitive reachability along the
consumer relation. -/
lemma isPredecessorOf_iff (g : TaskGraph) (a b : Nat) :
    isPredecessorOf g a b = true ↔ Relation.TransGen (StepRel g) a b := by
  constructor
  · intro h
    refine bfsLoop_sound g a b (fuelBound g) [] [a] ?_ ?_ h
    · intro z hz
      rw [List.mem_singleton] at hz
      subst hz
      exact Relation.ReflTransGen.refl
    · intro z hz
      cases hz
  · intro h
    obtain ⟨l, hp⟩ := (transGen_iff_exists_path g a b).mp h
    obtain ⟨l2, hp2, _, hnd⟩ := exists_nodup_path l.length le_rfl hp
    have hbound : l2.length + 1 ≤ (allConsumers g).length := by
      obtain ⟨hall, hb⟩ := path_subset_allConsumers hp2
      have hsub : ∀ z ∈ l2 ++ [b], z ∈ allConsumers g := by
        intro z hz
        rcases List.mem_append.mp hz with hc | hc
        · exact hall z hc
        · rw [List.mem_singleton.mp hc]
          exact hb
      have := nodup_length_le hnd hsub
      simpa using this
    exact bfs_complete g b l2.length (fuelBound g) [] [a] a l2 (by simp) hp2
      (by simp) (by simp) le_rfl (by unfold fuelBound; omega)

/-- Rendering of `x is None or x >= 0`. -/
def optNonnegB : Option Int → Bool
  | none => true
  | some e => decide (0 ≤ e)

/-- Rendering of `o.parent in tasks` (reference membership; `None` is never
a member). -/
def parentMemB (g : TaskGraph) (o : Nat) : Bool :=
  match (getOutput g o).parent with
  | none => false
  | some p => decide (p ∈ g.tasks)

/-- Embedding of `Task.validate` (`schedsim/common/task.py:153-161`) for
the task at reference `r`: nonnegative duration and expected duration, not
its own predecessor, duplicate-free outputs, and per-output parent pointer
and nonnegative sizes. -/
def taskValidateB (g : TaskGraph) (r : Nat) : Bool :=
  decide (0 ≤ (getTask g r).duration)
  && optNonnegB (getTask g r).expectedDuration
  && !(isPredecessorOf g r r)
  && decide ((getTask g r).outputs.Nodup)
  && (getTask g r).outputs.all (fun o =>
      decide ((getOutput g o).parent = some r)
      && decide (0 ≤ (getOutput g o).size)
      && optNonnegB (getOutput g o).expectedSize)

/-- The loop body of `TaskGraph.validate`
(`schedsim/common/taskgraph.py:84-100`) at position `i` of the task list:
`task.id == i`, `task.validate()`, inputs registered with their parent in
the graph, outputs registered with correct parent and consumers in the
graph. -/
def validatePos (g : TaskGraph) (i : Nat) : Bool :=
  decide ((getTask g (g.tasks.getD i 0)).id = some i)
  && taskValidateB g (g.tasks.getD i 0)
  && (getTask g (g.tasks.getD i 0)).inputs.all (fun o =>
      decide (o ∈ g.outputs) && parentMemB g o)
  && (getTask g (g.tasks.getD i 0)).outputs.all (fun o =>
      decide (o ∈ g.outputs)
      && decide ((getOutput g o).parent = some (g.tasks.getD i 0))
      && (getOutput g o).consumers.all (fun c => decide (c ∈ g.tasks)))

/-- Embedding of `TaskGraph.validate`: the `enumerate` loop over the task
list; `true` means no assertion fires. -/
def validateB (g : TaskGraph) : Bool :=
  (List.range g.tasks.length).all (validatePos g)

/-- The per-task conditions that `validate` checks, stated
declaratively. -/
def TaskChecks (g : TaskGraph) (r : Nat) : Prop :=
  ¬ Relation.TransGen (StepRel g) r r
  ∧ 0 ≤ (getTask g r).duration
  ∧ (∀ e, (getTask g r).expectedDuration = some e → 0 ≤ e)
  ∧ (getTask g r).outputs.Nodup
  ∧ (∀ o ∈ (getTask g r).outputs,
      (getOutput g o).parent = some r
      ∧ 0 ≤ (getOutput g o).size
      ∧ (∀ e, (getOutput g o).expectedSize = some e → 0 ≤ e)
      ∧ o ∈ g.outputs
      ∧ (∀ c ∈ (getOutput g o).consumers, c ∈ g.tasks))
  ∧ (∀ o ∈ (getTask g r).inputs,
      o ∈ g.outputs ∧ ∃ p ∈ g.tasks, (getOutput g o).parent = some p)

/-- What `TaskGraph.validate` accepts, declaratively: positionally correct
ids, and for every task of the graph: no directed cycle through it (no
task is its own transitive consumer), nonnegative duration / expected
duration / sizes / expected sizes, duplicate-free outputs with correct
parent pointers, inputs and outputs registered in the graph with parents
and consumers in the graph. -/
def ValidGraph (g : TaskGraph) : Prop :=
  (∀ i, i < g.tasks.length → (getTask g (g.tasks.getD i 0)).id = some i)
  ∧ (∀ r ∈ g.tasks, TaskChecks g r)

lemma optNonnegB_iff (x : Option Int) :
    optNonnegB x = true ↔ ∀ e, x = some e → 0 ≤ e := by
  cases x <;> simp [optNonnegB]

lemma parentMemB_iff (g : TaskGraph) (o : Nat) :
    parentMemB g o = true ↔ ∃ p ∈ g.tasks, (getOutput g o).parent = some p := by
  unfold parentMemB
  cases h : (getOutput g o).parent with
  | none => simp
  | some p =>
    simp only [decide_eq_true_eq]
    constructor
    · intro hp
      exact ⟨p, hp, rfl⟩
    · rintro ⟨q, hq, hqe⟩
      cases hqe
      exact hq

lemma isPredecessorOf_eq_false_iff (g : TaskGraph) (a b : Nat) :
    isPredecessorOf g a b = false ↔ ¬ Relation.TransGen (StepRel g) a b := by
  rw [← isPredecessorOf_iff]
  cases h : isPredecessorOf g a b <;> simp

lemma validatePos_iff (g : TaskGraph) (i : Nat) :
    validatePos g i = true ↔
      ((getTask g (g.tasks.getD i 0)).id = some i
        ∧ TaskChecks g (g.tasks.getD i 0)) := by
  unfold validatePos taskValidateB TaskChecks
  simp only [Bool.and_eq_true, decide_eq_true_eq, List.all_eq_true,
    optNonnegB_iff, parentMemB_iff, Bool.not_eq_true', isPredecessorOf_eq_false_iff]
  constructor
  · rintro ⟨⟨⟨hid, ⟨⟨⟨⟨hdur, hexp⟩, hnpred⟩, hnodup⟩, houts⟩⟩, hins⟩, houts2⟩
    refine ⟨hid, hnpred, hdur, hexp, hnodup, ?_, ?_⟩
    · intro o ho
      obtain ⟨⟨hpar, hsize⟩, hexps⟩ := houts o ho
      obtain ⟨⟨hmem, _⟩, hcons⟩ := houts2 o ho
      exact ⟨hpar, hsize, hexps, hmem, hcons⟩
    · intro o ho
      exact hins o ho
  · rintro ⟨hid, hnpred, hdur, hexp, hnodup, houts, hins⟩
    refine ⟨⟨⟨hid, ⟨⟨⟨⟨hdur, hexp⟩, hnpred⟩, hnodup⟩, ?_⟩⟩, ?_⟩, ?_⟩
    · intro o ho
      obtain ⟨hpar, hsize, hexps, _, _⟩ := houts o ho
      exact ⟨⟨hpar, hsize⟩, hexps⟩
    · intro o ho
      exact hins o ho
    · intro o ho
      obtain ⟨hpar, _, _, hmem, hcons⟩ := houts o ho
      exact ⟨⟨hmem, hpar⟩, hcons⟩

/-- C6 (amended): `TaskGraph.validate` succeeds exactly on the graphs
satisfying `ValidGraph`: no directed cycle, all durations / expected
durations / sizes / expected sizes nonnegative, every input and output
registered with parents (and consumers) in the graph — and additionally
the positional id check, the duplicate-free-outputs check, and the
output-parent-pointer check, which `validate` also performs. -/
theorem validate_iff_checks (g : TaskGraph) : validateB g = true ↔ ValidGraph g := by
  unfold validateB ValidGraph
  rw [List.all_eq_true]
  constructor
  · intro h
    constructor
    · intro i hi
      exact ((validatePos_iff g i).mp (h i (List.mem_range.mpr hi))).1
    · intro r hr
      obtain ⟨i, hi, heq⟩ := List.mem_iff_getElem.mp hr
      have hgd : g.tasks.getD i 0 = r := by
        rw [List.getD_eq_getElem?_getD, List.getElem?_eq_getElem hi, heq]
        rfl
      have := ((validatePos_iff g i).mp (h i (List.mem_range.mpr hi))).2
      rwa [hgd] at this
  · rintro ⟨h1, h2⟩ i hi
    rw [List.mem_range] at hi
    rw [validatePos_iff]
    refine ⟨h1 i hi, h2 _ ?_⟩
    rw [List.getD_eq_getElem?_getD, List.getElem?_eq_getElem hi]
    exact List.getElem_mem ..

/-- A graph whose sole task has a wrong `.id` (but no cycle, no negative
value, no dangling input). -/
def cg6 : TaskGraph := ⟨[⟨some 5, 1, none, 1, [], []⟩], [], [0], []⟩

lemma cg6_succs (r : Nat) : succs cg6 r = [] := by
  unfold succs getTask
  match r with
  | 0 => rfl
  | n + 1 =>
    rw [List.getD_eq_default]
    · rfl
    · simp [cg6]

/-- C6 (counterexample to the claim as stated): `cg6` has no cycle, no
negative duration or size, and no dangling input reference, yet `validate`
raises (its id check fails), so "validate succeeds iff no cycle, sizes and
durations nonnegative, and inputs registered" is false. -/
theorem validate_claim_counterexample :
    validateB cg6 = false
    ∧ (∀ r ∈ cg6.tasks, ¬ Relation.TransGen (StepRel cg6) r r)
    ∧ (∀ r ∈ cg6.tasks, 0 ≤ (getTask cg6 r).duration)
    ∧ (∀ r ∈ cg6.tasks, ∀ o ∈ (getTask cg6 r).outputs, 0 ≤ (getOutput cg6 o).size)
    ∧ (∀ r ∈ cg6.tasks, ∀ o ∈ (getTask cg6 r).inputs,
        o ∈ cg6.outputs ∧ ∃ p ∈ cg6.tasks, (getOutput cg6 o).parent = some p) := by
  refine ⟨by decide, ?_, by decide, by decide, by decide⟩
  intro r _ htg
  cases htg with
  | single h =>
    unfold StepRel at h
    rw [cg6_succs] at h
    cases h
  | tail h1 h2 =>
    unfold StepRel at h2
    rw [cg6_succs] at h2
    cases h2

/-- The source task at position `i` of the graph's task list (`_copy_tasks`
clones tasks positionally; `zip(self.tasks, tasks)` pairs each original
with its clone). -/
def srcTask (g : TaskGraph) (i : Nat) : Task := getTask g (g.tasks.getD i 0)

/-- The flattened outputs of the cloned tasks
(`outputs = flat_list(task.outputs for task in tasks)`), each output
tagged with the position of its owning task. -/
def flatOutputs (g : TaskGraph) : List (Nat × Nat) :=
  (List.range g.tasks.length).flatMap
    (fun i => (srcTask g i).outputs.map (fun o => (i, o)))

/-- Resolve the inputs of one cloned task: `add_input(outputs[inp.id])`
indexes the flat list of new outputs by the original input's `.id`;
`none` renders the `TypeError` (unset id) / `IndexError` (id out of
range) the Python source would raise. -/
def resolveInputs (g : TaskGraph) : List Nat → Option (List Nat)
  | [] => some []
  | o :: rest =>
    match (getOutput g o).id with
    | none => none
    | some k =>
      if k < (flatOutputs g).length then
        match resolveInputs g rest with
        | none => none
        | some ks => some (k :: ks)
      else none

/-- The resolved input list of the clone of task `i`. -/
def copiedInputs (g : TaskGraph) (i : Nat) : Option (List Nat) :=
  resolveInputs g (srcTask g i).inputs

/-- Resolve the inputs of every cloned task, in task order. -/
def resolveAll (g : TaskGraph) : List Nat → Option (List (List Nat))
  | [] => some []
  | i :: rest =>
    match copiedInputs g i with
    | none => none
    | some ks =>
      match resolveAll g rest with
      | none => none
      | some rest2 => some (ks :: rest2)

/-- Embedding of `TaskGraph.copy` =
`TaskGraph(tasks=self._copy_tasks())` (`schedsim/common/taskgraph.py`).
`_copy_tasks` clones each task with `simple_copy` (same duration /
expected duration / cpus, fresh outputs with the same size and expected
size, cleared consumers and ids), then replays `add_input` for each
original input, resolved by id into the flat output list; the `TaskGraph`
constructor then assigns positional task ids and flat positional output
ids.  The replayed loop mutates pairwise distinct cells, so the resulting
state is rendered cellwise: cloned task `i` owns the flat positions whose
tag is `i` (its contiguous block, in order); cloned output `j` carries the
copied sizes of the output it clones, its owner as `parent`, and as
`consumers` the set of tasks that list it among their resolved inputs, in
the insertion order of the replayed `add_input` calls (ascending task
position, once per task). -/
def copyGraph (g : TaskGraph) : Option TaskGraph :=
  match resolveAll g (List.range g.tasks.length) with
  | none => none
  | some inps => some
    ⟨(List.range g.tasks.length).map (fun i =>
        { id := some i
          duration := (srcTask g i).duration
          expectedDuration := (srcTask g i).expectedDuration
          cpus := (srcTask g i).cpus
          inputs := inps.getD i []
          outputs := (List.range (flatOutputs g).length).filter
            (fun j => ((flatOutputs g).getD j (0, 0)).1 = i) }),
      (List.range (flatOutputs g).length).map (fun j =>
        { id := some j
          size := (getOutput g ((flatOutputs g).getD j (0, 0)).2).size
          expectedSize := (getOutput g ((flatOutputs g).getD j (0, 0)).2).expectedSize
          parent := some ((flatOutputs g).getD j (0, 0)).1
          consumers := (List.range g.tasks.length).filter
            (fun i => j ∈ inps.getD i []) }),
      List.range g.tasks.length,
      List.range (flatOutputs g).length⟩

/-- A graph exactly as the graph builder lays it out: dense positional
references and ids, outputs flattened in task order, parent pointers at
the owners, and consumers exactly the derived relation. -/
def Canonical (g : TaskGraph) : Prop :=
  g.tasks = List.range g.taskHeap.length
  ∧ g.outputs = List.range g.outputHeap.length
  ∧ (∀ i, i < g.taskHeap.length → (getTask g i).id = some i)
  ∧ (∀ j, j < g.outputHeap.length → (getOutput g j).id = some j)
  ∧ (flatOutputs g).map Prod.snd = List.range g.outputHeap.length
  ∧ (∀ i, i < g.taskHeap.length → (getTask g i).outputs =
      (List.range g.outputHeap.length).filter
        (fun j => (getOutput g j).parent = some i))
  ∧ (∀ i, i < g.taskHeap.length → ∀ o ∈ (getTask g i).inputs, o < g.outputHeap.length)
  ∧ (∀ j, j < g.outputHeap.length → (getOutput g j).consumers =
      (List.range g.taskHeap.length).filter (fun i => j ∈ (getTask g i).inputs))

lemma getD_range {n i : Nat} (h : i < n) : (List.range n).getD i 0 = i := by
  rw [List.getD_eq_getElem?_getD, List.getElem?_range h]
  rfl

lemma getD_lt {α : Type} (l : List α) {i : Nat} (h : i < l.length) (d : α) :
    l.getD i d = l[i] := by
  rw [List.getD_eq_getElem?_getD, List.getElem?_eq_getElem h]
  rfl

lemma getTask_lt {g : TaskGraph} {i : Nat} (h : i < g.taskHeap.length) :
    getTask g i = g.taskHeap[i] := getD_lt _ h _

lemma getOutput_lt {g : TaskGraph} {j : Nat} (h : j < g.outputHeap.length) :
    getOutput g j = g.outputHeap[j] := getD_lt _ h _

lemma resolveInputs_id (g : TaskGraph) :
    ∀ l : List Nat,
      (∀ o ∈ l, (getOutput g o).id = some o ∧ o < (flatOutputs g).length) →
      resolveInputs g l = some l := by
  intro l
  induction l with
  | nil => intro _; rfl
  | cons o rest ih =>
    intro h
    obtain ⟨hid, hlt⟩ := h o (List.mem_cons_self _ _)
    unfold resolveInputs
    rw [hid]
    dsimp only
    rw [if_pos hlt, ih (fun x hx => h x (List.mem_cons_of_mem _ hx))]

lemma resolveAll_map (g : TaskGraph) (f : Nat → List Nat) :
    ∀ l : List Nat, (∀ i ∈ l, copiedInputs g i = some (f i)) →
      resolveAll g l = some (l.map f) := by
  intro l
  induction l with
  | nil => intro _; rfl
  | cons i rest ih =>
    intro h
    unfold resolveAll
    rw [h i (List.mem_cons_self _ _), ih (fun x hx => h x (List.mem_cons_of_mem _ hx))]
    rfl

/-- On a canonical graph, `copy` reproduces the graph itself. -/
lemma copy_canonical (g : TaskGraph) (hc : Canonical g) : copyGraph g = some g := by
  obtain ⟨ct, co, cid, coid, cflat, cout, cin, ccons⟩ := hc
  have hlen_tasks : g.tasks.length = g.taskHeap.length := by
    rw [ct]
    simp
  have hflatlen : (flatOutputs g).length = g.outputHeap.length := by
    have := congrArg List.length cflat
    simpa using this
  have hsrc : ∀ i, i < g.taskHeap.length → srcTask g i = getTask g i := by
    intro i hi
    unfold srcTask
    rw [ct, getD_range hi]
  have hsnd : ∀ j, j < g.outputHeap.length →
      ((flatOutputs g).getD j (0, 0)).2 = j := by
    intro j hj
    have hj2 : j < (flatOutputs g).length := by omega
    rw [getD_lt _ hj2]
    have h1 : ((flatOutputs g).map Prod.snd)[j]? = (List.range g.outputHeap.length)[j]? := by
      rw [cflat]
    rw [List.getElem?_map, List.getElem?_eq_getElem hj2, List.getElem?_range hj] at h1
    simpa using h1
  have hmem_decomp : ∀ pr : Nat × Nat, pr ∈ flatOutputs g →
      ∃ i, i ∈ List.range g.tasks.length ∧ pr.2 ∈ (srcTask g i).outputs ∧ pr.1 = i := by
    intro pr hpr
    unfold flatOutputs at hpr
    rw [List.mem_flatMap] at hpr
    obtain ⟨i, hi, hp⟩ := hpr
    rw [List.mem_map] at hp
    obtain ⟨o, ho, hpo⟩ := hp
    exact ⟨i, hi, by rw [← hpo]; exact ho, by rw [← hpo]⟩
  have hmem_flat : ∀ j, j < g.outputHeap.length →
      ∃ i, i < g.taskHeap.length ∧ j ∈ (getTask g i).outputs
        ∧ (flatOutputs g).getD j (0, 0) = (i, j) := by
    intro j hj
    have hj2 : j < (flatOutputs g).length := by omega
    have hmem : (flatOutputs g).getD j (0, 0) ∈ flatOutputs g := by
      rw [getD_lt _ hj2]
      exact List.getElem_mem ..
    obtain ⟨i, hi, h2, h1⟩ := hmem_decomp _ hmem
    rw [List.mem_range, hlen_tasks] at hi
    have hsj := hsnd j hj
    refine ⟨i, hi, ?_, ?_⟩
    · rw [← hsrc i hi, ← hsj]
      exact h2
    · rw [Prod.ext_iff]
      exact ⟨h1, hsj⟩
  have hparent_flat : ∀ j, j < g.outputHeap.length →
      (getOutput g j).parent = some ((flatOutputs g).getD j (0, 0)).1 := by
    intro j hj
    obtain ⟨i, hi, hjo, hpair⟩ := hmem_flat j hj
    have : j ∈ (List.range g.outputHeap.length).filter
        (fun j2 => (getOutput g j2).parent = some i) := by
      rw [← cout i hi]
      exact hjo
    rw [List.mem_filter, decide_eq_true_eq] at this
    rw [this.2, hpair]
  have howner : ∀ j, j < g.outputHeap.length → ∀ i : Nat,
      (((flatOutputs g).getD j (0, 0)).1 = i ↔ (getOutput g j).parent = some i) := by
    intro j hj i
    constructor
    · intro h
      rw [hparent_flat j hj, h]
    · intro h
      have h2 := hparent_flat j hj
      rw [h] at h2
      exact (Option.some.injEq _ _ ▸ h2 : i = _).symm
  have hinps_i : ∀ i, i < g.taskHeap.length →
      copiedInputs g i = some ((getTask g i).inputs) := by
    intro i hi
    unfold copiedInputs
    rw [hsrc i hi]
    apply resolveInputs_id
    intro o ho
    have hlt : o < g.outputHeap.length := cin i hi o ho
    exact ⟨coid o hlt, by omega⟩
  have hresolve : resolveAll g (List.range g.tasks.length) =
      some ((List.range g.tasks.length).map (fun i => (getTask g i).inputs)) := by
    apply resolveAll_map
    intro i hi
    rw [List.mem_range, hlen_tasks] at hi
    exact hinps_i i hi
  unfold copyGraph
  rw [hresolve]
  dsimp only
  have hinp_get : ∀ i, i < g.taskHeap.length →
      ((List.range g.tasks.length).map (fun i2 => (getTask g i2).inputs)).getD i []
        = (getTask g i).inputs := by
    intro i hi
    have hi2 : i < g.tasks.length := by omega
    rw [getD_lt _ (by simpa using hi2)]
    simp
  congr 1
  refine TaskGraph.ext ?_ ?_ ?_ ?_
  · apply List.ext_getElem
    · simp [hlen_tasks]
    · intro i h1 h2
      have hi : i < g.taskHeap.length := by
        simp at h1
        omega
      simp only [List.getElem_map, List.getElem_range]
      refine Task.ext ?_ ?_ ?_ ?_ ?_ ?_ <;>
        rw [← getTask_lt hi]
      · exact (cid i hi).symm
      · rw [hsrc i hi]
      · rw [hsrc i hi]
      · rw [hsrc i hi]
      · exact hinp_get i hi
      · rw [cout i hi]
        have hlen : (List.range (flatOutputs g).length) =
            (List.range g.outputHeap.length) := by rw [hflatlen]
        rw [hlen]
        apply List.filter_congr
        intro j hj
        rw [List.mem_range] at hj
        exact decide_eq_decide.mpr (howner j hj i)
  · apply List.ext_getElem
    · simp [hflatlen]
    · intro j h1 h2
      have hj : j < g.outputHeap.length := by
        simp at h1
        omega
      simp only [List.getElem_map, List.getElem_range]
      refine TaskOutput.ext ?_ ?_ ?_ ?_ ?_ <;>
        rw [← getOutput_lt hj]
      · exact (coid j hj).symm
      · rw [hsnd j hj]
      · rw [hsnd j hj]
      · exact (hparent_flat j hj).symm
      · rw [ccons j hj, hlen_tasks]
        apply List.filter_congr
        intro i hi
        rw [List.mem_range] at hi
        have hx := hinp_get i hi
        rw [hlen_tasks] at hx
        rw [hx]
  · show List.range g.tasks.length = g.tasks
    rw [hlen_tasks]
    exact ct.symm
  · show List.range (flatOutputs g).length = g.outputs
    rw [hflatlen]
    exact co.symm

/-- C7 (amended): on every canonically laid-out graph (dense positional
ids, outputs flattened in task order, parent and consumer relations
consistent — as the graph builder produces) `copy` succeeds and `validate`
succeeds on the copy iff it succeeds on the original. -/
theorem copy_preserves_validate (g : TaskGraph) (h : Canonical g) :
    ∃ g2, copyGraph g = some g2 ∧ (validateB g2 = true ↔ validateB g = true) :=
  ⟨g, copy_canonical g h, Iff.rfl⟩

/-- A canonical two-task graph: task 0 produces object 0, which task 1
consumes. -/
def cg7 : TaskGraph :=
  ⟨[⟨some 0, 1, none, 1, [], [0]⟩, ⟨some 1, 2, none, 1, [0], []⟩],
    [⟨some 0, 3, none, some 0, [1]⟩],
    [0, 1], [0]⟩

/-- Witness for C7: `copy` succeeds on the canonical graph `cg7`. -/
theorem copy_preserves_validate_witness : (copyGraph cg7).isSome = true := by
  obtain ⟨g2, hc, _⟩ := copy_preserves_validate cg7 (by unfold Canonical; decide)
  rw [hc]
  rfl

/-- C7 (counterexample to the claim as stated): `cg6` fails `validate`
(its task's id is wrong), yet its copy — which gets freshly assigned
positional ids — passes `validate`, so "validate succeeds on the copy iff
it succeeds on the original" is false for arbitrary graphs. -/
theorem copy_validate_claim_counterexample :
    (copyGraph cg6).map validateB = some true ∧ validateB cg6 = false := by
  decide

/-- C9: `Task.output` returns the unique element of `outputs` when there is
exactly one, and raises (with distinct descriptive messages) when there are
none or at least two. -/
theorem output_ok_iff_unique (t : Task) :
    (t.outputs = [] → t.output = .error "Task has no output")
    ∧ (∀ o, t.outputs = [o] → t.output = .ok o)
    ∧ (2 ≤ t.outputs.length → t.output = .error "Task has no unique output") := by
  refine ⟨fun h => ?_, fun o h => ?_, fun h => ?_⟩
  · simp [Task.output, h]
  · simp [Task.output, h]
  · have hne : t.outputs ≠ [] := by
      intro hc; rw [hc] at h; simp at h
    have hlt : 1 < t.outputs.length := by omega
    simp [Task.output, hne, hlt]

/-- Witness for C9 at a concrete single-output task. -/
theorem output_ok_iff_unique_witness :
    Task.output ⟨none, 1, none, 1, [], [7]⟩ = .ok 7 :=
  (output_ok_iff_unique ⟨none, 1, none, 1, [], [7]⟩).2.1 7 rfl

/-- C10: after `normalize`, `inputs` is duplicate-free, sorted by ascending
object id, and has the same members; `normalize` is idempotent and touches
no other field of the task. -/
theorem normalize_idempotent (g : TaskGraph) (t : Task) :
    ((t.normalize g).inputs.Nodup)
    ∧ ((t.normalize g).inputs.Sorted (fun a b => sortKey g a ≤ sortKey g b))
    ∧ (∀ r, r ∈ (t.normalize g).inputs ↔ r ∈ t.inputs)
    ∧ ((t.normalize g).normalize g = t.normalize g)
    ∧ (t.normalize g).id = t.id
    ∧ (t.normalize g).duration = t.duration
    ∧ (t.normalize g).expectedDuration = t.expectedDuration
    ∧ (t.normalize g).cpus = t.cpus
    ∧ (t.normalize g).outputs = t.outputs := by
  have hnd : ((t.normalize g).inputs).Nodup := by
    have := List.perm_insertionSort
      (fun a b => sortKey g a ≤ sortKey g b) (t.inputs.dedup)
    exact (this.nodup_iff).mpr (List.nodup_dedup _)
  have hsort : ((t.normalize g).inputs).Sorted
      (fun a b => sortKey g a ≤ sortKey g b) := by
    haveI : IsTotal Nat (fun a b => sortKey g a ≤ sortKey g b) :=
      ⟨fun a b => Nat.le_total _ _⟩
    haveI : IsTrans Nat (fun a b => sortKey g a ≤ sortKey g b) :=
      ⟨fun _ _ _ => Nat.le_trans⟩
    exact List.sorted_insertionSort _ _
  refine ⟨hnd, hsort, fun r => ?_, ?_, rfl, rfl, rfl, rfl, rfl⟩
  · simp [Task.normalize, List.mem_insertionSort, List.mem_dedup]
  · show ({ t.normalize g with inputs := _ } : Task) = t.normalize g
    have h1 : ((t.normalize g).inputs).dedup = (t.normalize g).inputs :=
      hnd.dedup
    have h2 : (((t.normalize g).inputs).dedup).insertionSort
        (fun a b => sortKey g a ≤ sortKey g b) = (t.normalize g).inputs := by
      rw [h1]; exact hsort.insertionSort_eq
    simp [h2]

end Schedsim

namespace Schedtk

/-- Embedding of `TaskState` (`schedtk/simulator.py`).  The source enum has
exactly these four members; in particular there is no `Running` member,
although the `is_running` property of the source compares against
`TaskState.Running`. -/
inductive TaskState where
  | Waiting
  | Ready
  | Assigned
  | Finished
deriving DecidableEq, Inhabited, Fintype

/-- Embedding of `TaskRuntimeInfo` (`schedtk/simulator.py`): the per-task
mutable runtime record.  The source's `__slots__` are `state`,
`assign_time`, `end_time`, `assigned_workers`, `unfinished_inputs` (note:
no `start_time`).  Workers are referenced by index. -/
structure TaskRuntimeInfo where
  state : TaskState
  assignTime : Option Int
  endTime : Option Int
  assignedWorkers : List Nat
  unfinishedInputs : Int
deriving DecidableEq, Inhabited

/-- Modelled from the spec: the task class consumed by
`schedtk/simulator.py` is not among the sources (only the simulator that
drives it is).  Per spec §3 a task carries "an ordered list of input
references to DataObjects" and every data object is "produced by exactly
one parent task"; the simulator only ever looks at `len(task.inputs)` and
at the parent tasks of the inputs, so a task is modelled by the list of
parent-task ids of its input objects, one entry per input object. -/
structure Task where
  inputParents : List Nat
deriving DecidableEq, Inhabited

/-- Modelled from the spec: the task-graph container for the simulator
(tasks indexed by dense ids). -/
structure TaskGraph where
  tasks : List Task
deriving DecidableEq, Inhabited

/-- Modelled from the spec: `task.consumers` as read at
`schedtk/simulator.py:84`.  Spec §3 calls `consumers` a "set of tasks" and
§9 a "derived relation": the consumers of (the outputs of) task `p` are
the tasks having an input object whose parent is `p`; being a set, each
consumer task appears exactly once. -/
def consumers (g : TaskGraph) (p : Nat) : List Nat :=
  (List.range g.tasks.length).filter
    (fun i => p ∈ (g.tasks.getD i default).inputParents)

/-- The mutable simulator state: per-task runtime infos (indexed by task
id), per-worker assignment queues (indexed by worker id; the worker class
is absent from the sources, and spec §3 gives each worker "a queue of
assigned-but-not-yet-running tasks" to which `assign_task` appends), and
the `new_ready` / `new_finished` / `unprocessed_tasks` fields of
`Simulator`. -/
structure SimState where
  infos : List TaskRuntimeInfo
  queues : List (List Nat)
  newReady : List Nat
  newFinished : List Nat
  unprocessedTasks : Int
deriving DecidableEq, Inhabited

/-- Embedding of `TaskRuntimeInfo.__init__`. -/
def initInfo (t : Task) : TaskRuntimeInfo :=
  ⟨.Waiting, none, none, [], t.inputParents.length⟩

/-- The state set up by `Simulator.run` before any event fires. -/
def initState (g : TaskGraph) (numWorkers : Nat) : SimState :=
  ⟨g.tasks.map initInfo, List.replicate numWorkers [], [], [], g.tasks.length⟩

/-- The runtime state of task `t`. -/
def stateOf (s : SimState) (t : Nat) : TaskState := (s.infos.getD t default).state

/-- The `assigned_workers` history of task `t`. -/
def workersOf (s : SimState) (t : Nat) : List Nat :=
  (s.infos.getD t default).assignedWorkers

/-- The `unfinished_inputs` counter of task `t`. -/
def unfinishedOf (s : SimState) (t : Nat) : Int :=
  (s.infos.getD t default).unfinishedInputs

/-- The assignment queue of worker `w`. -/
def queueOf (s : SimState) (w : Nat) : List Nat := s.queues.getD w []

/-- One iteration of the loop in `Simulator.schedule`
(`schedtk/simulator.py:57-63`): raise if the task is `Finished`; otherwise
mark it `Assigned`, append the worker to `assigned_workers` and enqueue the
task on the worker.  The error carries the state at the point of the
raise. -/
def assignOne (s : SimState) (w t : Nat) : Except (String × SimState) SimState :=
  let info := s.infos.getD t default
  if info.state = .Finished then
    .error ("Scheduler tries to assign a finished task (task " ++ toString t ++ ")", s)
  else
    .ok { s with
      infos := s.infos.set t
        { info with state := .Assigned, assignedWorkers := info.assignedWorkers ++ [w] },
      queues := s.queues.set w (s.queues.getD w [] ++ [t]) }

/-- Embedding of `Simulator.schedule` applied to the assignment list the
scheduler returned: assignments are applied in order and an exception
aborts the loop. -/
def scheduleStep (s : SimState) : List (Nat × Nat) → Except (String × SimState) SimState
  | [] => .ok s
  | (w, t) :: rest =>
    match assignOne s w t with
    | .error e => .error e
    | .ok s' => scheduleStep s' rest

/-- The body of the consumer loop in `Simulator.on_task_finished`
(`schedtk/simulator.py:84-95`): decrement `unfinished_inputs`; on reaching
zero assert the task was `Waiting` and make it `Ready`; a negative counter
raises. -/
def finishOne (s : SimState) (c : Nat) : Except (String × SimState) SimState :=
  let info := s.infos.getD c default
  let u := info.unfinishedInputs - 1
  let s1 := { s with infos := s.infos.set c { info with unfinishedInputs := u } }
  if u < 0 then
    .error ("Invalid number of unfinished inputs", s1)
  else if u = 0 then
    if info.state = .Waiting then
      .ok { s1 with
        infos := s.infos.set c { info with unfinishedInputs := u, state := .Ready },
        newReady := s1.newReady ++ [c] }
    else .error ("assert t_info.state == TaskState.Waiting", s1)
  else .ok s1

/-- The consumer loop of `Simulator.on_task_finished`. -/
def finishConsumers (s : SimState) : List Nat → Except (String × SimState) SimState
  | [] => .ok s
  | c :: rest =>
    match finishOne s c with
    | .error e => .error e
    | .ok s' => finishConsumers s' rest

/-- Embedding of `Simulator.on_task_finished`
(`schedtk/simulator.py:75-98`): assert the task was `Assigned` and the
worker is in its history, mark it `Finished`, record it, and update every
consumer. -/
def finishStep (g : TaskGraph) (s : SimState) (w t : Nat) :
    Except (String × SimState) SimState :=
  let info := s.infos.getD t default
  if info.state ≠ .Assigned then
    .error ("assert info.state == TaskState.Assigned", s)
  else if w ∉ info.assignedWorkers then
    .error ("assert worker in info.assigned_workers", s)
  else
    finishConsumers
      { s with
        infos := s.infos.set t { info with state := .Finished },
        newFinished := s.newFinished ++ [t],
        unprocessedTasks := s.unprocessedTasks - 1 }
      (consumers g t)

/-- The states a run can be in at event boundaries: the initial state,
followed by any interleaving of (successful) scheduling steps, task-finish
events, and the master loop's clearing of the `new_ready` / `new_finished`
accumulators. -/
inductive Reachable (g : TaskGraph) (nw : Nat) : SimState → Prop where
  | init : Reachable g nw (initState g nw)
  | sched {s l s'} : Reachable g nw s → scheduleStep s l = .ok s' → Reachable g nw s'
  | finish {s w t s'} : Reachable g nw s → finishStep g s w t = .ok s' → Reachable g nw s'
  | clear {s} : Reachable g nw s →
      Reachable g nw { s with newReady := [], newFinished := [] }

lemma getD_set_eq {α : Type} (L : List α) (i : Nat) (x d : α) (h : i < L.length) :
    (L.set i x).getD i d = x := by
  simp [List.getD_eq_getElem?_getD, List.getElem?_set_self, h]

lemma getD_set_ne {α : Type} (L : List α) (i j : Nat) (x d : α) (h : j ≠ i) :
    (L.set i x).getD j d = L.getD j d := by
  simp [List.getD_eq_getElem?_getD, List.getElem?_set_ne (Ne.symm h)]

lemma getD_set_cases {α : Type} (L : List α) (i j : Nat) (x d : α) :
    (L.set i x).getD j d = L.getD j d
    ∨ (j = i ∧ i < L.length ∧ (L.set i x).getD j d = x) := by
  by_cases hji : j = i
  · subst hji
    by_cases hlen : j < L.length
    · exact Or.inr ⟨rfl, hlen, getD_set_eq L j x d hlen⟩
    · left
      rw [List.set_eq_of_length_le (Nat.le_of_not_lt hlen)]
  · exact Or.inl (getD_set_ne L i j x d hji)

/-- Effects of one successful assignment. -/
lemma assignOne_ok {s : SimState} {w t : Nat} {s' : SimState}
    (h : assignOne s w t = .ok s') :
    stateOf s t ≠ .Finished
    ∧ s'.infos.length = s.infos.length
    ∧ s'.queues.length = s.queues.length
    ∧ (∀ i, i ≠ t → s'.infos.getD i default = s.infos.getD i default)
    ∧ (t < s.infos.length → s'.infos.getD t default =
        { s.infos.getD t default with
            state := .Assigned
            assignedWorkers := (s.infos.getD t default).assignedWorkers ++ [w] })
    ∧ (s.infos.length ≤ t → s'.infos = s.infos)
    ∧ (∀ v, queueOf s' v = queueOf s v ∨ queueOf s' v = queueOf s v ++ [t])
    ∧ (∀ v, v ≠ w → queueOf s' v = queueOf s v)
    ∧ (w < s.queues.length → queueOf s' w = queueOf s w ++ [t])
    ∧ s'.newReady = s.newReady ∧ s'.newFinished = s.newFinished
    ∧ s'.unprocessedTasks = s.unprocessedTasks := by
  unfold assignOne at h
  dsimp only at h
  split at h
  · exact absurd h (by simp)
  next hf =>
    cases h
    refine ⟨hf, by simp, by simp, ?_, ?_, ?_, ?_, ?_, ?_, rfl, rfl, rfl⟩
    · intro i hi
      exact getD_set_ne _ _ _ _ _ hi
    · intro hlt
      exact getD_set_eq _ _ _ _ hlt
    · intro hle
      simp [List.set_eq_of_length_le hle]
    · intro v
      rcases getD_set_cases s.queues w v (s.queues.getD w [] ++ [t]) [] with hc | ⟨hvw, _, hc⟩
      · exact Or.inl hc
      · subst hvw
        exact Or.inr hc
    · intro v hv
      exact getD_set_ne _ _ _ _ _ hv
    · intro hw
      exact getD_set_eq _ _ _ _ hw

/-- Successful scheduling never changes any `unfinished_inputs` counter nor
whether any task is `Finished`, and preserves the lengths of the state
vectors. -/
lemma scheduleStep_ok_inv {s : SimState} {l : List (Nat × Nat)} {s' : SimState}
    (h : scheduleStep s l = .ok s') :
    s'.infos.length = s.infos.length ∧ s'.queues.length = s.queues.length
    ∧ (∀ i, unfinishedOf s' i = unfinishedOf s i)
    ∧ (∀ i, stateOf s' i = .Finished ↔ stateOf s i = .Finished) := by
  induction l generalizing s with
  | nil =>
    cases h
    exact ⟨rfl, rfl, fun _ => rfl, fun _ => Iff.rfl⟩
  | cons a rest ih =>
    obtain ⟨w, t⟩ := a
    unfold scheduleStep at h
    cases ha : assignOne s w t with
    | error e => rw [ha] at h; cases h
    | ok s1 =>
      rw [ha] at h
      obtain ⟨hnf, hli, hlq, hne, heq, hoob, _, _, _, _, _, _⟩ := assignOne_ok ha
      obtain ⟨ih1, ih2, ih3, ih4⟩ := ih h
      refine ⟨ih1.trans hli, ih2.trans hlq, ?_, ?_⟩
      · intro i
        rw [ih3 i]
        by_cases hit : i = t
        · subst hit
          by_cases hlt : i < s.infos.length
          · unfold unfinishedOf
            rw [heq hlt]
          · unfold unfinishedOf
            rw [hoob (Nat.le_of_not_lt hlt)]
        · unfold unfinishedOf
          rw [hne i hit]
      · intro i
        rw [ih4 i]
        by_cases hit : i = t
        · subst hit
          by_cases hlt : i < s.infos.length
          · unfold stateOf
            rw [heq hlt]
            simp only []
            constructor
            · intro hc; cases hc
            · intro hc; exact absurd hc hnf
          · unfold stateOf
            rw [hoob (Nat.le_of_not_lt hlt)]
        · unfold stateOf
          rw [hne i hit]

/-- A successful scheduling pass appends, to each task's
`assigned_workers`, exactly the workers of the assignments naming that
task, in order. -/
lemma scheduleStep_ok_workers (s : SimState) (l : List (Nat × Nat)) (s' : SimState)
    (hl : ∀ a ∈ l, a.2 < s.infos.length) (h : scheduleStep s l = .ok s') :
    ∀ i, workersOf s' i =
      workersOf s i ++ (l.filter (fun a => decide (a.2 = i))).map (fun a => a.1) := by
  induction l generalizing s with
  | nil =>
    cases h
    simp
  | cons a rest ih =>
    obtain ⟨w, t⟩ := a
    unfold scheduleStep at h
    cases ha : assignOne s w t with
    | error e => rw [ha] at h; cases h
    | ok s1 =>
      rw [ha] at h
      obtain ⟨_, hli, _, hne, heq, _, _, _, _, _, _, _⟩ := assignOne_ok ha
      have ht : t < s.infos.length := hl (w, t) (List.mem_cons_self _ _)
      have hl1 : ∀ a ∈ rest, a.2 < s1.infos.length := by
        intro a hae
        rw [hli]
        exact hl a (List.mem_cons_of_mem _ hae)
      intro i
      rw [ih s1 hl1 h i]
      by_cases hit : t = i
      · subst hit
        have hw1 : workersOf s1 t = workersOf s t ++ [w] := by
          unfold workersOf
          rw [heq ht]
        rw [hw1]
        simp [List.filter_cons]
      · have hw1 : workersOf s1 i = workersOf s i := by
          unfold workersOf
          rw [hne i (fun hc => hit hc.symm)]
        rw [hw1]
        simp [List.filter_cons, hit]

/-- A successful scheduling pass enqueues each task on each worker exactly
as many times as the assignment list pairs them. -/
lemma scheduleStep_ok_queues (s : SimState) (l : List (Nat × Nat)) (s' : SimState)
    (hw : ∀ a ∈ l, a.1 < s.queues.length) (h : scheduleStep s l = .ok s') :
    ∀ v i, List.count i (queueOf s' v) =
      List.count i (queueOf s v) + (l.filter (fun a => decide (a = (v, i)))).length := by
  induction l generalizing s with
  | nil =>
    cases h
    simp
  | cons a rest ih =>
    obtain ⟨w, t⟩ := a
    unfold scheduleStep at h
    cases ha : assignOne s w t with
    | error e => rw [ha] at h; cases h
    | ok s1 =>
      rw [ha] at h
      obtain ⟨_, _, hlq, _, _, _, _, hqne, hqeq, _, _, _⟩ := assignOne_ok ha
      have hwlt : w < s.queues.length := hw (w, t) (List.mem_cons_self _ _)
      have hw1 : ∀ a ∈ rest, a.1 < s1.queues.length := by
        intro a hae
        rw [hlq]
        exact hw a (List.mem_cons_of_mem _ hae)
      intro v i
      rw [ih s1 hw1 h v i]
      have hstep : List.count i (queueOf s1 v) =
          List.count i (queueOf s v) + (if (w, t) = (v, i) then 1 else 0) := by
        by_cases hvw : v = w
        · subst hvw
          rw [hqeq hwlt, List.count_append, List.count_singleton']
          by_cases hti : t = i
          · subst hti; simp
          · simp [hti, Prod.ext_iff]
        · rw [hqne v hvw]
          have hne : (w, t) ≠ (v, i) := by
            intro hc
            cases hc
            exact hvw rfl
          simp [hne]
      rw [hstep, List.filter_cons]
      by_cases hwt : (w, t) = (v, i)
      · simp [hwt]
        omega
      · simp [hwt]

/-- Effects of one successful consumer update in `on_task_finished`. -/
lemma finishOne_ok {s : SimState} {c : Nat} {s' : SimState} (h : finishOne s c = .ok s') :
    c < s.infos.length
    ∧ s'.infos.length = s.infos.length
    ∧ (∀ i, i ≠ c → s'.infos.getD i default = s.infos.getD i default)
    ∧ unfinishedOf s' c = unfinishedOf s c - 1
    ∧ workersOf s' c = workersOf s c
    ∧ (stateOf s' c = .Finished ↔ stateOf s c = .Finished)
    ∧ s'.queues = s.queues ∧ s'.newFinished = s.newFinished
    ∧ s'.unprocessedTasks = s.unprocessedTasks := by
  have hc : c < s.infos.length := by
    by_contra hge
    have hdef : s.infos.getD c default = default :=
      List.getD_eq_default _ _ (Nat.le_of_not_lt hge)
    unfold finishOne at h
    dsimp only at h
    rw [hdef] at h
    norm_num [show (default : TaskRuntimeInfo).unfinishedInputs = 0 from rfl] at h
    exact absurd h (by simp)
  unfold finishOne at h
  dsimp only at h
  split at h
  · exact absurd h (by simp)
  next hneg =>
    split at h
    next hzero =>
      split at h
      next hwait =>
        cases h
        refine ⟨hc, by simp, ?_, ?_, ?_, ?_, rfl, rfl, rfl⟩
        · intro i hi
          exact getD_set_ne _ _ _ _ _ hi
        · unfold unfinishedOf
          rw [getD_set_eq _ _ _ _ hc]
        · unfold workersOf
          rw [getD_set_eq _ _ _ _ hc]
        · unfold stateOf
          rw [getD_set_eq _ _ _ _ hc]
          simp only []
          rw [hwait]
          constructor
          · intro hcon; cases hcon
          · intro hcon; cases hcon
      · exact absurd h (by simp)
    next hzero =>
      cases h
      refine ⟨hc, by simp, ?_, ?_, ?_, ?_, rfl, rfl, rfl⟩
      · intro i hi
        exact getD_set_ne _ _ _ _ _ hi
      · unfold unfinishedOf
        rw [getD_set_eq _ _ _ _ hc]
      · unfold workersOf
        rw [getD_set_eq _ _ _ _ hc]
      · unfold stateOf
        rw [getD_set_eq _ _ _ _ hc]

/-- Effects of the successful consumer loop over a duplicate-free consumer
list: every listed task's counter drops by exactly one, everything else is
untouched. -/
lemma finishConsumers_ok {s : SimState} {L : List Nat} {s' : SimState}
    (h : finishConsumers s L = .ok s') (hnd : L.Nodup) :
    s'.infos.length = s.infos.length
    ∧ (∀ i, unfinishedOf s' i =
        if i ∈ L then unfinishedOf s i - 1 else unfinishedOf s i)
    ∧ (∀ i, workersOf s' i = workersOf s i)
    ∧ (∀ i, stateOf s' i = .Finished ↔ stateOf s i = .Finished)
    ∧ s'.queues = s.queues ∧ s'.newFinished = s.newFinished
    ∧ s'.unprocessedTasks = s.unprocessedTasks := by
  induction L generalizing s with
  | nil =>
    cases h
    exact ⟨rfl, fun i => by simp, fun _ => rfl, fun _ => Iff.rfl, rfl, rfl, rfl⟩
  | cons c rest ih =>
    unfold finishConsumers at h
    cases hc : finishOne s c with
    | error e => rw [hc] at h; cases h
    | ok s1 =>
      rw [hc] at h
      obtain ⟨hclen, hlen1, hne1, hdec1, hwk1, hst1, hq1, hnf1, hup1⟩ := finishOne_ok hc
      obtain ⟨hlen2, hdec2, hwk2, hst2, hq2, hnf2, hup2⟩ := ih h hnd.of_cons
      have hcrest : c ∉ rest := (List.nodup_cons.mp hnd).1
      refine ⟨hlen2.trans hlen1, ?_, ?_, ?_, hq2.trans hq1, hnf2.trans hnf1,
        hup2.trans hup1⟩
      · intro i
        rw [hdec2 i]
        by_cases hic : i = c
        · subst hic
          simp [hcrest, hdec1]
        · have : unfinishedOf s1 i = unfinishedOf s i := by
            unfold unfinishedOf
            rw [hne1 i hic]
          simp [hic, this]
      · intro i
        rw [hwk2 i]
        by_cases hic : i = c
        · subst hic; exact hwk1
        · unfold workersOf
          rw [hne1 i hic]
      · intro i
        rw [hst2 i]
        by_cases hic : i = c
        · subst hic; exact hst1
        · unfold stateOf
          rw [hne1 i hic]

/-- The consumer list derived for a task is duplicate-free. -/
lemma consumers_nodup (g : TaskGraph) (p : Nat) : (consumers g p).Nodup :=
  (List.nodup_range _).filter _

/-- Membership in the derived consumer relation. -/
lemma mem_consumers (g : TaskGraph) (p i : Nat) :
    i ∈ consumers g p ↔ i < g.tasks.length ∧ p ∈ (g.tasks.getD i default).inputParents := by
  unfold consumers
  simp [List.mem_filter, List.mem_range]

/-- Effects of a successful `on_task_finished` event. -/
lemma finishStep_ok {g : TaskGraph} {s : SimState} {w t : Nat} {s' : SimState}
    (h : finishStep g s w t = .ok s') :
    stateOf s t = .Assigned
    ∧ w ∈ workersOf s t
    ∧ t < s.infos.length
    ∧ s'.infos.length = s.infos.length
    ∧ (∀ i, stateOf s' i = .Finished ↔ (stateOf s i = .Finished ∨ i = t))
    ∧ (∀ i, unfinishedOf s' i =
        if i ∈ consumers g t then unfinishedOf s i - 1 else unfinishedOf s i)
    ∧ (∀ i, workersOf s' i = workersOf s i)
    ∧ s'.queues = s.queues := by
  unfold finishStep at h
  dsimp only at h
  split at h
  · exact absurd h (by simp)
  next hstate =>
    split at h
    · exact absurd h (by simp)
    next hmem =>
      rw [not_not] at hstate hmem
      have hstA : stateOf s t = .Assigned := hstate
      have htlt : t < s.infos.length := by
        by_contra hge
        have hdef : s.infos.getD t default = default :=
          List.getD_eq_default _ _ (Nat.le_of_not_lt hge)
        rw [hdef] at hstate
        cases hstate
      obtain ⟨hlen2, hdec2, hwk2, hst2, hq2, _, _⟩ :=
        finishConsumers_ok h (consumers_nodup g t)
      have hst1 : ∀ i, stateOf
          { s with
              infos := s.infos.set t
                { s.infos.getD t default with state := .Finished }
              newFinished := s.newFinished ++ [t]
              unprocessedTasks := s.unprocessedTasks - 1 } i
          = if i = t then .Finished else stateOf s i := by
        intro i
        unfold stateOf
        by_cases hit : i = t
        · subst hit
          rw [getD_set_eq _ _ _ _ htlt]
          simp
        · simp only [if_neg hit]
          rw [getD_set_ne _ _ _ _ _ hit]
      refine ⟨hstA, hmem, htlt, by simpa using hlen2, ?_, ?_, ?_, by simpa using hq2⟩
      · intro i
        rw [hst2 i, hst1 i]
        by_cases hit : i = t
        · subst hit; simp
        · simp [hit]
      · intro i
        rw [hdec2 i]
        have hmid : unfinishedOf
            { s with
                infos := s.infos.set t
                  { s.infos.getD t default with state := .Finished }
                newFinished := s.newFinished ++ [t]
                unprocessedTasks := s.unprocessedTasks - 1 } i
            = unfinishedOf s i := by
          unfold unfinishedOf
          by_cases hit : i = t
          · subst hit
            rw [getD_set_eq _ _ _ _ htlt]
          · rw [getD_set_ne _ _ _ _ _ hit]
        rw [hmid]
      · intro i
        rw [hwk2 i]
        unfold workersOf
        by_cases hit : i = t
        · subst hit
          rw [getD_set_eq _ _ _ _ htlt]
        · rw [getD_set_ne _ _ _ _ _ hit]

/-- Before any event, every task is `Waiting`. -/
lemma stateOf_init (g : TaskGraph) (nw p : Nat) :
    stateOf (initState g nw) p = .Waiting := by
  unfold stateOf initState
  rw [List.getD_eq_getElem?_getD, List.getElem?_map]
  cases g.tasks[p]? <;> rfl

/-- The parent-task ids of the input objects of task `t`. -/
def parentsOf (g : TaskGraph) (t : Nat) : List Nat :=
  (g.tasks.getD t default).inputParents

lemma parentsOf_oob {g : TaskGraph} {t : Nat} (h : g.tasks.length ≤ t) :
    parentsOf g t = [] := by
  unfold parentsOf
  rw [List.getD_eq_default _ _ h]
  rfl

/-- Initially every counter equals the number of input objects. -/
lemma unfinishedOf_init (g : TaskGraph) (nw t : Nat) :
    unfinishedOf (initState g nw) t = ((parentsOf g t).length : Int) := by
  unfold unfinishedOf initState parentsOf
  rw [List.getD_eq_getElem?_getD, List.getElem?_map, List.getD_eq_getElem?_getD]
  cases g.tasks[t]? <;> rfl

/-- The number of distinct parent tasks of `t`'s inputs that are
`Finished`. -/
def finishedParents (g : TaskGraph) (s : SimState) (t : Nat) : Nat :=
  ((parentsOf g t).dedup.filter (fun p => decide (stateOf s p = .Finished))).length

lemma finishedParents_congr {g : TaskGraph} {s s' : SimState}
    (hfin : ∀ p, stateOf s' p = .Finished ↔ stateOf s p = .Finished) (t : Nat) :
    finishedParents g s' t = finishedParents g s t := by
  unfold finishedParents
  congr 1
  apply List.filter_congr
  intro p _
  exact decide_eq_decide.mpr (hfin p)

/-- Counting a filter enlarged by one extra (fresh) element over a
duplicate-free list. -/
lemma length_filter_or_mem (q : Nat → Bool) (t : Nat) (hqt : q t = false) :
    ∀ P : List Nat, P.Nodup →
      (P.filter (fun p => q p || decide (p = t))).length
        = (P.filter q).length + (if t ∈ P then 1 else 0) := by
  intro P
  induction P with
  | nil => intro _; simp
  | cons a rest ih =>
    intro hP
    obtain ⟨hanr, hndr⟩ := List.nodup_cons.mp hP
    by_cases hat : a = t
    · subst hat
      rw [List.filter_cons, List.filter_cons, if_pos (by simp),
        if_neg (by simp [hqt])]
      have hcong : rest.filter (fun p => q p || decide (p = a)) = rest.filter q := by
        apply List.filter_congr
        intro x hx
        have hxa : x ≠ a := fun hc => hanr (hc ▸ hx)
        simp [hxa]
      rw [hcong]
      simp
    · have hdat : decide (a = t) = false := by simp [hat]
      rw [List.filter_cons, List.filter_cons, hdat, Bool.or_false]
      have hmem : (if t ∈ a :: rest then 1 else 0) = (if t ∈ rest then 1 else 0) := by
        simp only [List.mem_cons]
        have : ¬ t = a := fun hc => hat hc.symm
        simp [this]
      by_cases hq : q a = true
      · rw [if_pos hq, if_pos hq]
        simp only [List.length_cons]
        rw [ih hndr, hmem]
        omega
      · rw [if_neg hq, if_neg hq, ih hndr, hmem]

/-- C2 (amended): at every reachable state, each task's
`unfinished_inputs` equals its number of input objects minus the number of
its distinct `Finished` parent tasks; when every task's inputs come from
pairwise distinct parents this is exactly the number of input objects whose
parent is not `Finished`. -/
theorem unfinished_inputs_invariant (g : TaskGraph) (nw : Nat) (s : SimState)
    (h : Reachable g nw s) :
    (∀ t, unfinishedOf s t =
      ((parentsOf g t).length : Int) - (finishedParents g s t : Int))
    ∧ ((∀ t, (parentsOf g t).Nodup) → ∀ t,
      unfinishedOf s t =
        (((parentsOf g t).filter
          (fun p => decide (¬ stateOf s p = .Finished))).length : Int)) := by
  have main : ∀ t, unfinishedOf s t =
      ((parentsOf g t).length : Int) - (finishedParents g s t : Int) := by
    induction h with
    | init =>
      intro t
      rw [unfinishedOf_init]
      have hz : finishedParents g (initState g nw) t = 0 := by
        unfold finishedParents
        have : ∀ p ∈ (parentsOf g t).dedup,
            ¬ (decide (stateOf (initState g nw) p = TaskState.Finished) = true) := by
          intro p _
          simp [stateOf_init]
        rw [List.filter_eq_nil_iff.mpr this]
        rfl
      rw [hz]
      simp
    | @sched s1 l s2 hr hok ih =>
      intro t
      obtain ⟨_, _, hcnt, hfin⟩ := scheduleStep_ok_inv hok
      rw [hcnt t, ih t, finishedParents_congr hfin t]
    | @finish s1 w t0 s2 hr hok ih =>
      intro t
      obtain ⟨hstA, _, _, _, hfin, hdec, _, _⟩ := finishStep_ok hok
      have hq : decide (stateOf s1 t0 = TaskState.Finished) = false := by
        simp [hstA]
      have hfp : finishedParents g s2 t
          = finishedParents g s1 t + (if t0 ∈ parentsOf g t then 1 else 0) := by
        unfold finishedParents
        have hcong : (parentsOf g t).dedup.filter
            (fun p => decide (stateOf s2 p = TaskState.Finished))
            = (parentsOf g t).dedup.filter
              (fun p => decide (stateOf s1 p = TaskState.Finished) || decide (p = t0)) := by
          apply List.filter_congr
          intro p _
          have hp := hfin p
          by_cases h2 : stateOf s2 p = TaskState.Finished
          · rcases hp.mp h2 with h3 | h3
            · simp [h2, h3]
            · subst h3
              simp [h2]
          · have h3 : ¬ (stateOf s1 p = TaskState.Finished ∨ p = t0) :=
              fun hor => h2 (hp.mpr hor)
            push_neg at h3
            simp [h2, h3.1, h3.2]
        rw [hcong,
          length_filter_or_mem _ _ hq _ ((parentsOf g t).nodup_dedup)]
        simp [List.mem_dedup]
      rw [hdec t, hfp]
      by_cases hc : t ∈ consumers g t0
      · have hpar : t0 ∈ parentsOf g t := ((mem_consumers g t0 t).mp hc).2
        rw [if_pos hc, if_pos hpar, ih t]
        push_cast
        ring
      · have hpar : t0 ∉ parentsOf g t := by
          intro hin
          apply hc
          rw [mem_consumers]
          refine ⟨?_, hin⟩
          by_contra hge
          rw [parentsOf_oob (Nat.le_of_not_lt hge)] at hin
          cases hin
        rw [if_neg hc, if_neg hpar, ih t]
        simp
    | @clear s1 hr ih =>
      intro t
      exact ih t
  refine ⟨main, fun hnd t => ?_⟩
  rw [main t]
  unfold finishedParents
  rw [(hnd t).dedup]
  have hpred : (fun p => decide (¬ stateOf s p = TaskState.Finished))
      = (fun p => ! decide (stateOf s p = TaskState.Finished)) := by
    funext p
    simp [decide_not]
  have hlen := List.length_eq_length_filter_add (l := parentsOf g t)
    (fun p => decide (stateOf s p = TaskState.Finished))
  simp only [] at hlen
  rw [hpred]
  omega

/-- A one-task graph (the task has no inputs). -/
def cg1 : TaskGraph := ⟨[⟨[]⟩]⟩

/-- The state of a `cg1` run after its task is assigned to worker 0. -/
def cs1a : SimState := ⟨[⟨.Assigned, none, none, [0], 0⟩], [[0]], [], [], 1⟩

/-- The state of a `cg1` run after its task finishes on worker 0. -/
def cs1b : SimState := ⟨[⟨.Finished, none, none, [0], 0⟩], [[0]], [], [0], 0⟩

/-- C1 (as the code has it): the runtime state of a task ranges over the
closed four-element set `{Waiting, Ready, Assigned, Finished}` — there is
no fifth `Running` value — and a task that executes steps directly from
`Assigned` to `Finished`, as the concrete run of a one-task graph shows. -/
theorem task_states_closed_four (st : TaskState) :
    Fintype.card TaskState = 4
    ∧ (st = .Waiting ∨ st = .Ready ∨ st = .Assigned ∨ st = .Finished)
    ∧ scheduleStep (initState cg1 1) [(0, 0)] = .ok cs1a
    ∧ finishStep cg1 cs1a 0 0 = .ok cs1b
    ∧ stateOf cs1a 0 = .Assigned
    ∧ stateOf cs1b 0 = .Finished
    ∧ Reachable cg1 1 cs1b := by
  have h1 : scheduleStep (initState cg1 1) [((0 : Nat), (0 : Nat))] = .ok cs1a := by
    rfl
  have h2 : finishStep cg1 cs1a 0 0 = .ok cs1b := by
    rfl
  refine ⟨by decide, by cases st <;> simp, h1, h2, rfl, rfl,
    Reachable.finish (Reachable.sched Reachable.init h1) h2⟩

/-- A graph with a source task 0 and a task 1 that consumes two distinct
objects both produced by task 0. -/
def cg2 : TaskGraph := ⟨[⟨[]⟩, ⟨[0, 0]⟩]⟩

/-- The `cg2` run after task 0 is assigned to worker 0. -/
def cs2a : SimState :=
  ⟨[⟨.Assigned, none, none, [0], 0⟩, ⟨.Waiting, none, none, [], 2⟩], [[0]], [], [], 2⟩

/-- The `cg2` run after task 0 finishes: task 1's counter was decremented
only once (once per consumer, not once per input object). -/
def cs2b : SimState :=
  ⟨[⟨.Finished, none, none, [0], 0⟩, ⟨.Waiting, none, none, [], 1⟩], [[0]], [], [0], 1⟩

/-- C2 (counterexample to the claim as stated): in the reachable state
`cs2b` of the `cg2` run, task 1's `unfinished_inputs` is 1, while the
number of its input objects whose parent is not `Finished` is 0: the
claimed invariant fails on a graph in which one task consumes two objects
of the same parent. -/
theorem unfinished_inputs_claim_counterexample :
    Reachable cg2 1 cs2b
    ∧ unfinishedOf cs2b 1 = 1
    ∧ ((parentsOf cg2 1).filter
        (fun p => decide (¬ stateOf cs2b p = .Finished))).length = 0 := by
  have h1 : scheduleStep (initState cg2 1) [((0 : Nat), (0 : Nat))] = .ok cs2a := by
    rfl
  have h2 : finishStep cg2 cs2a 0 0 = .ok cs2b := by
    rfl
  exact ⟨Reachable.finish (Reachable.sched Reachable.init h1) h2, by decide, by decide⟩

/-- Witness for C2: the amended invariant evaluated at the initial state of
the `cg2` run. -/
theorem unfinished_inputs_invariant_witness :
    unfinishedOf (initState cg2 1) 1 =
      ((parentsOf cg2 1).length : Int) - (finishedParents cg2 (initState cg2 1) 1 : Int) :=
  (unfinished_inputs_invariant cg2 1 (initState cg2 1) Reachable.init).1 1

/-- C4: if the scheduler's reply assigns a task that is already `Finished`,
the scheduling step raises a descriptive fatal error, and at the point of
the raise the finished task's runtime info is unchanged and the task has
not been enqueued on any worker; when the offending assignment is the first
of the reply the whole state is untouched and the message names the task. -/
theorem finished_assignment_rejected (s : SimState) (l : List (Nat × Nat)) (w t : Nat)
    (hfin : stateOf s t = .Finished) (hmem : (w, t) ∈ l) :
    ∃ e s', scheduleStep s l = .error (e, s')
      ∧ s'.infos.getD t default = s.infos.getD t default
      ∧ (∀ v, List.count t (queueOf s' v) = List.count t (queueOf s v))
      ∧ (l.head? = some (w, t) →
          e = "Scheduler tries to assign a finished task (task " ++ toString t ++ ")"
          ∧ s' = s) := by
  induction l generalizing s with
  | nil => cases hmem
  | cons a rest ih =>
    obtain ⟨w', t'⟩ := a
    by_cases hft : stateOf s t' = .Finished
    · refine ⟨"Scheduler tries to assign a finished task (task " ++ toString t' ++ ")",
        s, ?_, rfl, fun v => rfl, ?_⟩
      · have ha : assignOne s w' t' = .error
            ("Scheduler tries to assign a finished task (task " ++ toString t' ++ ")", s) := by
          unfold assignOne
          dsimp only
          rw [if_pos (show (s.infos.getD t' default).state = TaskState.Finished from hft)]
        unfold scheduleStep
        rw [ha]
      · intro hh
        have heq : (w', t') = (w, t) := by
          simpa using hh
        have ht2 : t' = t := congrArg Prod.snd heq
        subst ht2
        exact ⟨rfl, rfl⟩
    · have hne : t' ≠ t := fun hc => hft (hc ▸ hfin)
      cases hx : assignOne s w' t' with
      | error e =>
        exfalso
        unfold assignOne at hx
        dsimp only at hx
        rw [if_neg (show ¬ (s.infos.getD t' default).state = TaskState.Finished
          from hft)] at hx
        cases hx
      | ok s1 =>
        obtain ⟨_, _, _, hinfo_ne, _, _, hqor, _, _, _, _, _⟩ := assignOne_ok hx
        have hmem' : (w, t) ∈ rest := by
          rcases List.mem_cons.mp hmem with hc | hc
          · exact absurd (congrArg Prod.snd hc.symm) hne
          · exact hc
        have hfin' : stateOf s1 t = .Finished := by
          unfold stateOf
          rw [hinfo_ne t (fun hc => hne hc.symm)]
          exact hfin
        obtain ⟨e, s', hstep, hinfo, hcount, hhead⟩ := ih s1 hfin' hmem'
        refine ⟨e, s', ?_, ?_, ?_, ?_⟩
        · unfold scheduleStep
          rw [hx]
          exact hstep
        · rw [hinfo]
          exact hinfo_ne t (fun hc => hne hc.symm)
        · intro v
          rw [hcount v]
          rcases hqor v with hq | hq
          · rw [hq]
          · rw [hq, List.count_append, List.count_singleton']
            simp [hne]
        · intro hh
          have hc2 : (w', t') = (w, t) := by simpa using hh
          exact absurd (congrArg Prod.snd hc2) hne

/-- Witness for C4: a finished one-task graph whose task is assigned
again. -/
theorem finished_assignment_rejected_witness :
    scheduleStep cs1b [((0 : Nat), (0 : Nat))] =
      .error ("Scheduler tries to assign a finished task (task " ++ toString (0 : Nat) ++ ")",
        cs1b) := by
  obtain ⟨e, s', hstep, _, _, hh⟩ :=
    finished_assignment_rejected cs1b [(0, 0)] 0 0 (by decide) (by simp)
  obtain ⟨he, hs⟩ := hh rfl
  rw [hstep, he, hs]

/-- C5: `assigned_workers` is an append-only history: a successful
scheduling pass appends exactly one worker per assignment naming the task
(in reply order, so the current worker is the last entry) and enqueues the
task with the matching worker, and finishing a task never touches any
history. -/
theorem assigned_workers_append_only (g : TaskGraph) (s : SimState)
    (l : List (Nat × Nat))
    (hv : ∀ a ∈ l, a.2 < s.infos.length ∧ a.1 < s.queues.length) :
    (∀ s', scheduleStep s l = .ok s' →
      (∀ i, workersOf s' i =
        workersOf s i ++ (l.filter (fun a => decide (a.2 = i))).map (fun a => a.1))
      ∧ (∀ v i, List.count i (queueOf s' v) =
          List.count i (queueOf s v) + (l.filter (fun a => decide (a = (v, i)))).length))
    ∧ (∀ w t s', finishStep g s w t = .ok s' → ∀ i, workersOf s' i = workersOf s i) := by
  constructor
  · intro s' hok
    exact ⟨scheduleStep_ok_workers s l s' (fun a ha => (hv a ha).1) hok,
      scheduleStep_ok_queues s l s' (fun a ha => (hv a ha).2) hok⟩
  · intro w t s' hok i
    exact (finishStep_ok hok).2.2.2.2.2.2.1 i

/-- Witness for C5: assigning the single task of `cg1` to worker 0 appends
exactly that worker. -/
theorem assigned_workers_append_only_witness :
    workersOf cs1a 0 = workersOf (initState cg1 1) 0
      ++ (([((0 : Nat), (0 : Nat))].filter (fun a => decide (a.2 = 0))).map
          (fun a => a.1)) :=
  (((assigned_workers_append_only cg1 (initState cg1 1) [(0, 0)]
    (by intro a ha; simp only [List.mem_singleton] at ha; subst ha; exact ⟨by decide, by decide⟩)).1
    cs1a (by rfl)).1) 0

end Schedtk

namespace Estee

/-- Modelled from the spec: `TaskState` of `estee/simulator/runtimeinfo.py`
is not among the sources (`estee/schedulers/scheduler.py` imports it); per
spec §3 and §9 the state is the closed set
`{Waiting, Ready, Assigned, Running, Finished}`. -/
inductive TaskState where
  | Waiting
  | Ready
  | Assigned
  | Running
  | Finished
deriving DecidableEq, Inhabited

/-- Python dict lookup over an insertion-ordered association list. -/
def lookup {α : Type} (k : Nat) : List (Nat × α) → Option α
  | [] => none
  | (k2, v) :: rest => if k2 = k then some v else lookup k rest

/-- Python dict assignment: overwrite in place, or append a new key. -/
def upsert {α : Type} (k : Nat) (v : α) : List (Nat × α) → List (Nat × α)
  | [] => [(k, v)]
  | (k2, v2) :: rest => if k2 = k then (k, v) :: rest else (k2, v2) :: upsert k v rest

/-- Python `set.add`, on the insertion-ordered list model of sets. -/
def addToSet {α : Type} [DecidableEq α] (x : α) (l : List α) : List α :=
  if x ∈ l then l else l ++ [x]

/-- Modelled from the spec (§4.6): `SchedulerTask` of
`estee/schedulers/tasks.py` is not among the sources.  The mirror's task
record: id, inputs/outputs by object id, the scheduler hints, state,
`scheduled_worker`, `computed_by`, and the `unfinished_inputs` counter
(spec §3: "counter from `len(inputs)` to zero", so it starts at the number
of inputs). -/
structure SchedulerTask where
  id : Nat
  inputs : List Nat
  outputs : List Nat
  expectedDuration : Option Int
  cpus : Int
  state : TaskState
  scheduledWorker : Option Nat
  computedBy : Option Nat
  unfinishedInputs : Int
deriving DecidableEq, Inhabited

/-- Modelled from the spec (§4.6): `SchedulerDataObject` of
`estee/schedulers/tasks.py` is not among the sources.  The mirror's object
record, constructed in `_process_update` as
`SchedulerDataObject(id, expected_size, size)` with empty relations.
`scheduled` is a set that `assign` adds the passed worker to; the source
adds the worker argument itself, which may be `None`, hence
`Option Nat` entries. -/
structure SchedulerDataObject where
  id : Nat
  expectedSize : Option Int
  size : Option Int
  parent : Option Nat
  consumers : List Nat
  placing : List Nat
  availability : List Nat
  scheduled : List (Option Nat)
deriving DecidableEq, Inhabited

/-- The reply record built by `SchedulerBase.assign`. -/
structure TaskAssignRecord where
  worker : Option Nat
  task : Nat
  priority : Option Int
  blocking : Option Int
deriving DecidableEq, Inhabited

/-- The mirror state of `SchedulerBase`: workers (id → cpus), the cached
network bandwidth, the task and object mirrors, and the per-update
`assignments` dict (task id → reply record). -/
structure SchedulerState where
  workers : List (Nat × Int)
  networkBandwidth : Option Int
  tasks : List (Nat × SchedulerTask)
  objects : List (Nat × SchedulerDataObject)
  assignments : List (Nat × TaskAssignRecord)
deriving DecidableEq, Inhabited

/-- The state of a fresh scheduler (constructor /
`stop`-cleared state). -/
def initialState : SchedulerState := ⟨[], none, [], [], []⟩

/-- Embedding of `SchedulerBase.assign`
(`estee/schedulers/scheduler.py:191-209`): set the task `Assigned`, record
`scheduled_worker`, add the worker to the `scheduled` set of every input
and output object, and store the reply record in the `assignments` dict
keyed by the task (so a later assignment of the same task overwrites the
record).  The task is one of the mirror's own tasks; an unknown id leaves
the state unchanged (unreachable from the source, which passes mirror
objects directly). -/
def assign (s : SchedulerState) (w : Option Nat) (tid : Nat)
    (priority blocking : Option Int) : SchedulerState :=
  match lookup tid s.tasks with
  | none => s
  | some t =>
    { s with
        tasks := upsert tid { t with state := .Assigned, scheduledWorker := w } s.tasks
        objects := (t.inputs ++ t.outputs).foldl (fun os o =>
          match lookup o os with
          | none => os
          | some od => upsert o { od with scheduled := addToSet w od.scheduled } os)
          s.objects
        assignments := upsert tid ⟨w, tid, priority, blocking⟩ s.assignments }

/-- The reply `_process_update` returns:
`list(self.assignments.values())`. -/
def replyOf (s : SchedulerState) : List TaskAssignRecord :=
  s.assignments.map Prod.snd

/-- A mirror holding two workers, one task (input object 0, output object
1) and the two objects, with empty `scheduled` sets. -/
def c3state : SchedulerState :=
  ⟨[(1, 1), (2, 1)], none,
    [(5, ⟨5, [0], [1], none, 1, .Waiting, none, none, 1⟩)],
    [(0, ⟨0, none, none, none, [], [], [], []⟩),
      (1, ⟨1, none, none, some 5, [5], [], [], []⟩)],
    []⟩

/-- The mirror after `assign(w1, t)` followed by `assign(w2, t)` in the
same update. -/
def c3after : SchedulerState :=
  assign (assign c3state (some 1) 5 none none) (some 2) 5 none none

/-- C3: reassigning a task within one update leaves exactly one (the last)
reply record and the last `scheduled_worker`, but the objects' `scheduled`
sets keep BOTH workers: the overwritten worker 1 is never removed, so the
sets do not reflect only the last assignment (the repository's own
`test_simulator_local_reassign` asserts `o.scheduled == {w2}` here). -/
theorem assign_reassign_scheduled_sets :
    replyOf c3after = [⟨some 2, 5, none, none⟩]
    ∧ (lookup 5 c3after.tasks).map SchedulerTask.scheduledWorker = some (some 2)
    ∧ (lookup 0 c3after.objects).map SchedulerDataObject.scheduled
        = some [some 1, some 2]
    ∧ (lookup 1 c3after.objects).map SchedulerDataObject.scheduled
        = some [some 1, some 2]
    ∧ ¬ (lookup 0 c3after.objects).map SchedulerDataObject.scheduled
        = some [some 2] := by
  decide

/-- One entry of the `new_objects` field of an `update` message. -/
structure NewObjectMsg where
  id : Nat
  expectedSize : Option Int
  size : Option Int
deriving DecidableEq, Inhabited

/-- One entry of the `new_tasks` field of an `update` message. -/
structure NewTaskMsg where
  id : Nat
  inputs : List Nat
  outputs : List Nat
  expectedDuration : Option Int
  cpus : Int
deriving DecidableEq, Inhabited

/-- One entry of the `tasks_update` field of an `update` message. -/
structure TaskUpdateMsg where
  id : Nat
  state : TaskState
  worker : Nat
deriving DecidableEq, Inhabited

/-- One entry of the `objects_update` field of an `update` message. -/
structure ObjectUpdateMsg where
  id : Nat
  placing : List Nat
  availability : List Nat
  size : Option Int
deriving DecidableEq, Inhabited

/-- An `update` message: absent fields are the empty list / `none`
(Python's falsiness test on an absent or empty field collapses the two). -/
structure UpdateMessage where
  newWorkers : List (Nat × Int)
  networkBandwidth : Option Int
  newObjects : List NewObjectMsg
  newTasks : List NewTaskMsg
  tasksUpdate : List TaskUpdateMsg
  objectsUpdate : List ObjectUpdateMsg
deriving DecidableEq, Inhabited

/-- The `new_workers` loop of `_process_update`: registering an already
known worker id raises. -/
def addWorkers (ws : List (Nat × Int)) : List (Nat × Int) → Except String (List (Nat × Int))
  | [] => .ok ws
  | (wid, c) :: rest =>
    if (lookup wid ws).isSome then
      .error ("Registering already registered worker " ++ toString wid)
    else addWorkers (ws ++ [(wid, c)]) rest

/-- Repeated dict assignment (the shape of every registration loop of
`_process_update`). -/
def upsertMany {α : Type} (l : List (Nat × α)) : List (Nat × α) → List (Nat × α)
  | [] => l
  | (k, v) :: rest => upsertMany (upsert k v l) rest

/-- The object built by `SchedulerDataObject(id, expected_size, size)` for
a `new_objects` entry. -/
def freshObject (o : NewObjectMsg) : SchedulerDataObject :=
  ⟨o.id, o.expectedSize, o.size, none, [], [], [], []⟩

/-- The `new_objects` loop: `objects[id] = SchedulerDataObject(...)`. -/
def addObjects (objs : List (Nat × SchedulerDataObject)) (ps : List NewObjectMsg) :
    List (Nat × SchedulerDataObject) :=
  upsertMany objs (ps.map (fun o => (o.id, freshObject o)))

/-- The mirror task built for a `new_tasks` entry (`SchedulerTask` is not
among the sources; modelled from the spec, with `unfinished_inputs`
starting at `len(inputs)` per spec §3). -/
def taskOf (t : NewTaskMsg) : SchedulerTask :=
  ⟨t.id, t.inputs, t.outputs, t.expectedDuration, t.cpus, .Waiting, none, none,
    (t.inputs.length : Int)⟩

/-- A loop updating existing objects in place (cells absent from the dict
are untouched; the callers below only reach existing cells). -/
def guardFold (f : Nat → SchedulerDataObject → SchedulerDataObject)
    (os : List (Nat × SchedulerDataObject)) (L : List Nat) :
    List (Nat × SchedulerDataObject) :=
  L.foldl (fun os2 o =>
    match lookup o os2 with
    | none => os2
    | some od => upsert o (f o od) os2) os

/-- The object mutations of one `new_tasks` entry: set `parent` on each
output, add the task to `consumers` of each input. -/
def objMut (objs : List (Nat × SchedulerDataObject)) (t : NewTaskMsg) :
    List (Nat × SchedulerDataObject) :=
  guardFold (fun _ od => { od with consumers := addToSet t.id od.consumers })
    (guardFold (fun _ od => { od with parent := some t.id }) objs t.outputs)
    t.inputs

/-- The `new_tasks` loop of `_process_update`: look up every input and
output object (`KeyError` if unknown), build the mirror task, rewire the
objects, collect source tasks as ready, and store the task. -/
def addTasks : List (Nat × SchedulerDataObject) → List (Nat × SchedulerTask) →
    List Nat → List NewTaskMsg →
    Except String (List (Nat × SchedulerDataObject) × List (Nat × SchedulerTask) × List Nat)
  | objs, tasks, ready, [] => .ok (objs, tasks, ready)
  | objs, tasks, ready, t :: rest =>
    if (t.inputs ++ t.outputs).all (fun o => (lookup o objs).isSome) then
      addTasks (objMut objs t) (upsert t.id (taskOf t) tasks)
        (if t.inputs.length = 0 then ready ++ [t.id] else ready) rest
    else .error "KeyError: unknown object in new_tasks"

/-- The inner consumer loop of a `tasks_update` entry: decrement each
consumer's `unfinished_inputs`; on reaching zero assert it is exactly zero
and append the consumer to the ready list. -/
def decConsumers : List (Nat × SchedulerTask) → List Nat → List Nat →
    Except String (List (Nat × SchedulerTask) × List Nat)
  | tasks, ready, [] => .ok (tasks, ready)
  | tasks, ready, c :: rest =>
    match lookup c tasks with
    | none => .error "KeyError: unknown consumer task"
    | some t =>
      let u := t.unfinishedInputs - 1
      let tasks2 := upsert c { t with unfinishedInputs := u } tasks
      if u ≤ 0 then
        if u = 0 then decConsumers tasks2 (ready ++ [c]) rest
        else .error "assert t.unfinished_inputs == 0"
      else decConsumers tasks2 ready rest

/-- Walk the outputs of a finished task, decrementing the consumers of
each. -/
def decOutputs (objs : List (Nat × SchedulerDataObject)) :
    List (Nat × SchedulerTask) → List Nat → List Nat →
    Except String (List (Nat × SchedulerTask) × List Nat)
  | tasks, ready, [] => .ok (tasks, ready)
  | tasks, ready, o :: rest =>
    match lookup o objs with
    | none => .error "KeyError: unknown output object"
    | some od =>
      match decConsumers tasks ready od.consumers with
      | .error e => .error e
      | .ok (tasks2, ready2) => decOutputs objs tasks2 ready2 rest

/-- The `tasks_update` loop of `_process_update`: assert the reported
state is `Finished`, mark the task finished with its computing worker
(looked up in the worker dict), and update the consumers of its
outputs. -/
def applyTaskUpd (ws : List (Nat × Int)) : List (Nat × SchedulerTask) →
    List (Nat × SchedulerDataObject) → List Nat → List Nat → List TaskUpdateMsg →
    Except String (List (Nat × SchedulerTask) × List Nat × List Nat)
  | tasks, _, ready, fin, [] => .ok (tasks, ready, fin)
  | tasks, objs, ready, fin, tu :: rest =>
    if tu.state = TaskState.Finished then
      match lookup tu.id tasks with
      | none => .error "KeyError: unknown task in tasks_update"
      | some task =>
        match lookup tu.worker ws with
        | none => .error "KeyError: unknown worker in tasks_update"
        | some _ =>
          match decOutputs objs
            (upsert tu.id { task with state := .Finished, computedBy := some tu.worker } tasks)
            ready task.outputs with
          | .error e => .error e
          | .ok (tasks2, ready2) => applyTaskUpd ws tasks2 objs ready2 (fin ++ [tu.id]) rest
    else .error "assert tu state == TaskState.Finished"

/-- The new value of an object under one `objects_update` entry: placing
and availability replaced, size replaced when present. -/
def objUpdApply (ou : ObjectUpdateMsg) (od : SchedulerDataObject) : SchedulerDataObject :=
  { od with
      placing := ou.placing
      availability := ou.availability
      size := match ou.size with | none => od.size | some z => some z }

/-- The `objects_update` loop of `_process_update`: look up the object and
replace its placing and availability (each worker id resolved in the
worker dict) and optionally its size. -/
def applyObjUpd (ws : List (Nat × Int)) :
    List (Nat × SchedulerDataObject) → List ObjectUpdateMsg →
    Except String (List (Nat × SchedulerDataObject))
  | objs, [] => .ok objs
  | objs, ou :: rest =>
    match lookup ou.id objs with
    | none => .error "KeyError: unknown object in objects_update"
    | some od =>
      if ou.placing.all (fun w => (lookup w ws).isSome)
          && ou.availability.all (fun w => (lookup w ws).isSome) then
        applyObjUpd ws (upsert ou.id (objUpdApply ou od) objs) rest
      else .error "KeyError: unknown worker in objects_update"

/-- Embedding of `SchedulerBase._process_update`
(`estee/schedulers/scheduler.py:92-189`): register new workers (raising on
a duplicate), refresh the bandwidth, register new objects and tasks,
apply task and object updates, reset the `assignments` dict and invoke
`schedule`.  `SchedulerBase.schedule` itself is abstract
(`NotImplementedError`); the claim concerns the mirror, so the policy
callback is modelled as assigning nothing, making the reply empty. -/
def processUpdate (s : SchedulerState) (msg : UpdateMessage) :
    Except String (SchedulerState × List TaskAssignRecord) :=
  match addWorkers s.workers msg.newWorkers with
  | .error e => .error e
  | .ok ws =>
    match addTasks (addObjects s.objects msg.newObjects) s.tasks [] msg.newTasks with
    | .error e => .error e
    | .ok (objs2, tasks1, ready1) =>
      match applyTaskUpd ws tasks1 objs2 ready1 [] msg.tasksUpdate with
      | .error e => .error e
      | .ok (tasks2, _, _) =>
        match applyObjUpd ws objs2 msg.objectsUpdate with
        | .error e => .error e
        | .ok objs3 =>
          .ok (⟨ws,
            (match msg.networkBandwidth with
              | none => s.networkBandwidth
              | some b => some b),
            tasks2, objs3, []⟩, [])

/-- The key list of an association list (Python dict key view, in
insertion order). -/
def keys {α : Type} (l : List (Nat × α)) : List Nat := l.map Prod.fst

theorem lookup_upsert_self {α : Type} (k : Nat) (v : α) :
    ∀ l : List (Nat × α), lookup k (upsert k v l) = some v
  | [] => by simp [upsert, lookup]
  | (k2, v2) :: rest => by
    by_cases h : k2 = k
    · simp [upsert, h, lookup]
    · simp [upsert, h, lookup, lookup_upsert_self k v rest]

theorem lookup_upsert_ne {α : Type} (k k2 : Nat) (v : α) (h : k2 ≠ k) :
    ∀ l : List (Nat × α), lookup k2 (upsert k v l) = lookup k2 l
  | [] => by simp [upsert, lookup, Ne.symm h]
  | (k3, v3) :: rest => by
    by_cases h3 : k3 = k
    · subst h3
      simp [upsert, lookup, Ne.symm h, h]
    · simp only [upsert, if_neg h3, lookup]
      by_cases h2 : k3 = k2
      · simp [h2]
      · simp [h2, lookup_upsert_ne k k2 v h rest]

theorem mem_keys_iff {α : Type} (k : Nat) :
    ∀ l : List (Nat × α), k ∈ keys l ↔ (lookup k l).isSome
  | [] => by simp [keys, lookup]
  | (k2, v) :: rest => by
    by_cases h : k2 = k
    · subst h; simp [keys, lookup]
    · have hcons : keys ((k2, v) :: rest) = k2 :: keys rest := rfl
      rw [hcons, List.mem_cons, mem_keys_iff k rest]
      simp only [lookup, if_neg h]
      constructor
      · rintro (h1 | h1)
        · exact absurd h1.symm h
        · exact h1
      · exact fun h1 => Or.inr h1

theorem keys_upsert_isSome {α : Type} (k : Nat) (v : α) :
    ∀ l : List (Nat × α), (lookup k l).isSome → keys (upsert k v l) = keys l
  | [] => by simp [lookup]
  | (k2, v2) :: rest => by
    intro h
    by_cases hk : k2 = k
    · subst hk; simp [upsert, keys]
    · simp only [lookup, if_neg hk] at h
      rw [show upsert k v ((k2, v2) :: rest) = (k2, v2) :: upsert k v rest from
        by simp [upsert, hk]]
      show k2 :: keys (upsert k v rest) = k2 :: keys rest
      rw [keys_upsert_isSome k v rest h]

theorem keys_upsert_none {α : Type} (k : Nat) (v : α) :
    ∀ l : List (Nat × α), lookup k l = none → keys (upsert k v l) = keys l ++ [k]
  | [] => by simp [upsert, keys, lookup]
  | (k2, v2) :: rest => by
    intro h
    by_cases hk : k2 = k
    · subst hk; simp [lookup] at h
    · simp only [lookup, if_neg hk] at h
      rw [show upsert k v ((k2, v2) :: rest) = (k2, v2) :: upsert k v rest from
        by simp [upsert, hk]]
      show k2 :: keys (upsert k v rest) = (k2 :: keys rest) ++ [k]
      rw [keys_upsert_none k v rest h]
      rfl

theorem nodup_keys_upsert {α : Type} (k : Nat) (v : α) (l : List (Nat × α))
    (h : (keys l).Nodup) : (keys (upsert k v l)).Nodup := by
  cases hx : lookup k l with
  | none =>
    rw [keys_upsert_none k v l hx]
    refine List.Nodup.append h (List.nodup_singleton k) ?_
    intro a ha hb
    simp only [List.mem_singleton] at hb
    subst hb
    exact absurd ((mem_keys_iff a l).mp ha) (by simp [hx])
  | some w =>
    rw [keys_upsert_isSome k v l (by simp [hx])]
    exact h

/-- The value the last occurrence of a key in a registration list wins
with (`none` if absent). -/
def lastVal {α : Type} (k : Nat) : List (Nat × α) → Option α
  | [] => none
  | (k2, v) :: rest =>
    match lastVal k rest with
    | some r => some r
    | none => if k2 = k then some v else none

theorem lookup_upsertMany {α : Type} (k : Nat) :
    ∀ (ps l : List (Nat × α)),
      lookup k (upsertMany l ps) =
        match lastVal k ps with
        | some v => some v
        | none => lookup k l
  | [], l => by simp [upsertMany, lastVal]
  | (k2, v) :: rest, l => by
    show lookup k (upsertMany (upsert k2 v l) rest) = _
    rw [lookup_upsertMany k rest (upsert k2 v l)]
    cases hx : lastVal k rest with
    | some r => simp [lastVal, hx]
    | none =>
      by_cases h : k2 = k
      · subst h; simp [lastVal, hx, lookup_upsert_self]
      · simp [lastVal, hx, h, lookup_upsert_ne k2 k v (Ne.symm h) l]

theorem lastVal_isSome_of_mem {α : Type} (p : Nat × α) :
    ∀ ps : List (Nat × α), p ∈ ps → (lastVal p.1 ps).isSome
  | [] => by
    intro hm
    exact absurd hm (List.not_mem_nil p)
  | q :: rest => by
    intro hm
    cases hx : lastVal p.1 rest with
    | some r =>
      obtain ⟨k2, v⟩ := q
      simp [lastVal, hx]
    | none =>
      rcases List.mem_cons.mp hm with h | h
      · subst h; simp [lastVal, hx]
      · exact absurd (lastVal_isSome_of_mem p rest h) (by simp [hx])

theorem keys_upsertMany_covered {α : Type} :
    ∀ (ps l : List (Nat × α)), (∀ p ∈ ps, (lookup p.1 l).isSome) →
      keys (upsertMany l ps) = keys l
  | [], l => fun _ => rfl
  | (k, v) :: rest, l => by
    intro h
    have hk1 : (lookup k l).isSome := h (k, v) (List.mem_cons_self _ _)
    have h2 : ∀ p ∈ rest, (lookup p.1 (upsert k v l)).isSome := by
      intro p hp
      rw [← mem_keys_iff, keys_upsert_isSome k v l hk1, mem_keys_iff]
      exact h p (List.mem_cons_of_mem _ hp)
    show keys (upsertMany (upsert k v l) rest) = keys l
    rw [keys_upsertMany_covered rest (upsert k v l) h2, keys_upsert_isSome k v l hk1]

theorem nodup_keys_upsertMany {α : Type} :
    ∀ (ps l : List (Nat × α)), (keys l).Nodup → (keys (upsertMany l ps)).Nodup
  | [], _ => fun h => h
  | (k, v) :: rest, l => fun h =>
    nodup_keys_upsertMany rest (upsert k v l) (nodup_keys_upsert k v l h)

theorem assoc_ext {α : Type} :
    ∀ (l1 l2 : List (Nat × α)), (keys l1).Nodup → keys l1 = keys l2 →
      (∀ k, lookup k l1 = lookup k l2) → l1 = l2
  | [], l2 => by
    intro _ hk _
    cases l2 with
    | nil => rfl
    | cons p t => simp [keys] at hk
  | (k, v) :: t1, l2 => by
    intro hnd hk hl
    cases l2 with
    | nil => simp [keys] at hk
    | cons p t2 =>
      obtain ⟨k2, v2⟩ := p
      simp only [keys, List.map_cons] at hk
      injection hk with h1 h2
      subst h1
      have hv : v = v2 := by
        have hx := hl k
        simpa [lookup] using hx
      subst hv
      simp only [keys, List.map_cons, List.nodup_cons] at hnd
      have hknot : k ∉ keys t1 := by
        intro hmem
        exact hnd.1 (by simpa [keys] using hmem)
      have htl : ∀ k3, lookup k3 t1 = lookup k3 t2 := by
        intro k3
        by_cases h3 : k = k3
        · subst h3
          have e1 : lookup k t1 = none := by
            cases he : lookup k t1 with
            | none => rfl
            | some w => exact absurd ((mem_keys_iff k t1).mpr (by simp [he])) hknot
          have e2 : lookup k t2 = none := by
            cases he : lookup k t2 with
            | none => rfl
            | some w =>
              refine absurd ((mem_keys_iff k t2).mpr (by simp [he])) ?_
              have h2k : keys t1 = keys t2 := h2
              rw [← h2k]
              exact hknot
          rw [e1, e2]
        · have hx := hl k3
          simpa [lookup, h3] using hx
      rw [assoc_ext t1 t2 (by simpa [keys] using hnd.2) h2 htl]

/-- Replaying a registration list over a dict that already has exactly the
keys the replay would create leaves the dict at the replay's result. -/
theorem upsertMany_replay {α : Type} (ps l : List (Nat × α))
    (hkeys : keys l = keys (upsertMany ([] : List (Nat × α)) ps)) :
    upsertMany l ps = upsertMany [] ps := by
  have hcov : ∀ p ∈ ps, (lookup p.1 l).isSome := by
    intro p hp
    rw [← mem_keys_iff, hkeys, mem_keys_iff, lookup_upsertMany p.1 ps []]
    cases hx : lastVal p.1 ps with
    | none => exact absurd (lastVal_isSome_of_mem p ps hp) (by simp [hx])
    | some w => simp [hx]
  apply assoc_ext
  · rw [keys_upsertMany_covered ps l hcov, hkeys]
    exact nodup_keys_upsertMany ps [] (by simp [keys])
  · rw [keys_upsertMany_covered ps l hcov, hkeys]
  · intro k
    rw [lookup_upsertMany k ps l, lookup_upsertMany k ps []]
    cases hx : lastVal k ps with
    | some w => simp [hx]
    | none =>
      have h1 : lookup k (upsertMany ([] : List (Nat × α)) ps) = none := by
        rw [lookup_upsertMany k ps []]
        simp [hx, lookup]
      have h2 : lookup k l = none := by
        cases he : lookup k l with
        | none => rfl
        | some w =>
          have hmem : k ∈ keys l := (mem_keys_iff k l).mpr (by simp [he])
          rw [hkeys, mem_keys_iff, h1] at hmem
          simp at hmem
      simp [hx, lookup, h2]

theorem keys_guardFold (f : Nat → SchedulerDataObject → SchedulerDataObject) :
    ∀ (L : List Nat) (os : List (Nat × SchedulerDataObject)),
      keys (guardFold f os L) = keys os
  | [], os => rfl
  | o :: L, os => by
    cases hx : lookup o os with
    | none =>
      have hstep : guardFold f os (o :: L) = guardFold f os L := by
        simp [guardFold, List.foldl_cons, hx]
      rw [hstep, keys_guardFold f L os]
    | some od =>
      have hstep : guardFold f os (o :: L) = guardFold f (upsert o (f o od) os) L := by
        simp [guardFold, List.foldl_cons, hx]
      rw [hstep, keys_guardFold f L (upsert o (f o od) os),
        keys_upsert_isSome o (f o od) os (by simp [hx])]

theorem keys_objMut (objs : List (Nat × SchedulerDataObject)) (t : NewTaskMsg) :
    keys (objMut objs t) = keys objs := by
  unfold objMut
  rw [keys_guardFold, keys_guardFold]

/-- The object dict after the object mutations of a whole `new_tasks`
list. -/
def objsAfterTasks : List (Nat × SchedulerDataObject) → List NewTaskMsg →
    List (Nat × SchedulerDataObject)
  | objs, [] => objs
  | objs, t :: rest => objsAfterTasks (objMut objs t) rest

theorem keys_objsAfterTasks :
    ∀ (ps : List NewTaskMsg) (objs : List (Nat × SchedulerDataObject)),
      keys (objsAfterTasks objs ps) = keys objs
  | [], objs => rfl
  | t :: ps, objs => by
    show keys (objsAfterTasks (objMut objs t) ps) = keys objs
    rw [keys_objsAfterTasks ps (objMut objs t), keys_objMut]

/-- The task registrations a `new_tasks` list performs. -/
def taskPairs (ps : List NewTaskMsg) : List (Nat × SchedulerTask) :=
  ps.map (fun t => (t.id, taskOf t))

/-- The source tasks a `new_tasks` list contributes to the ready list. -/
def readyFromTasks (ps : List NewTaskMsg) : List Nat :=
  (ps.filter (fun t => decide (t.inputs.length = 0))).map (fun t => t.id)

theorem addTasks_cons (objs : List (Nat × SchedulerDataObject))
    (tasks : List (Nat × SchedulerTask)) (ready : List Nat)
    (t : NewTaskMsg) (rest : List NewTaskMsg) :
    addTasks objs tasks ready (t :: rest) =
      if (t.inputs ++ t.outputs).all (fun o => (lookup o objs).isSome) then
        addTasks (objMut objs t) (upsert t.id (taskOf t) tasks)
          (if t.inputs.length = 0 then ready ++ [t.id] else ready) rest
      else .error "KeyError: unknown object in new_tasks" := rfl

theorem addTasks_ok_pre :
    ∀ (ps : List NewTaskMsg) (objs : List (Nat × SchedulerDataObject))
      (tasks : List (Nat × SchedulerTask)) (ready : List Nat)
      (r : List (Nat × SchedulerDataObject) × List (Nat × SchedulerTask) × List Nat),
      addTasks objs tasks ready ps = .ok r →
      ∀ t ∈ ps, ∀ o ∈ t.inputs ++ t.outputs, (lookup o objs).isSome
  | [] => by
    intro _ _ _ _ _ t ht
    exact absurd ht (List.not_mem_nil t)
  | t0 :: ps => by
    intro objs tasks ready r h t ht o ho
    rw [addTasks_cons] at h
    by_cases hall : ((t0.inputs ++ t0.outputs).all (fun o => (lookup o objs).isSome)) = true
    · rw [if_pos hall] at h
      rcases List.mem_cons.mp ht with h1 | h1
      · subst h1
        exact List.all_eq_true.mp hall o ho
      · have hrec := addTasks_ok_pre ps (objMut objs t0) (upsert t0.id (taskOf t0) tasks)
          (if t0.inputs.length = 0 then ready ++ [t0.id] else ready) r h t h1 o ho
        rw [← mem_keys_iff, keys_objMut] at hrec
        rw [← mem_keys_iff]
        exact hrec
    · rw [if_neg hall] at h
      cases h

theorem addTasks_eq :
    ∀ (ps : List NewTaskMsg) (objs : List (Nat × SchedulerDataObject))
      (tasks : List (Nat × SchedulerTask)) (ready : List Nat),
      (∀ t ∈ ps, ∀ o ∈ t.inputs ++ t.outputs, (lookup o objs).isSome) →
      addTasks objs tasks ready ps =
        .ok (objsAfterTasks objs ps, upsertMany tasks (taskPairs ps),
          ready ++ readyFromTasks ps)
  | [] => by
    intro objs tasks ready _
    simp [addTasks, objsAfterTasks, taskPairs, upsertMany, readyFromTasks]
  | t0 :: ps => by
    intro objs tasks ready hpre
    have hall : ((t0.inputs ++ t0.outputs).all (fun o => (lookup o objs).isSome)) = true :=
      List.all_eq_true.mpr (fun o ho => hpre t0 (List.mem_cons_self _ _) o ho)
    have hpre2 : ∀ t ∈ ps, ∀ o ∈ t.inputs ++ t.outputs, (lookup o (objMut objs t0)).isSome := by
      intro t ht o ho
      have hx := hpre t (List.mem_cons_of_mem _ ht) o ho
      rw [← mem_keys_iff] at hx ⊢
      rw [keys_objMut]
      exact hx
    rw [addTasks_cons, if_pos hall,
      addTasks_eq ps (objMut objs t0) (upsert t0.id (taskOf t0) tasks)
        (if t0.inputs.length = 0 then ready ++ [t0.id] else ready) hpre2]
    by_cases h0 : t0.inputs.length = 0
    · have h0e : t0.inputs = [] := List.length_eq_zero.mp h0
      simp [objsAfterTasks, taskPairs, upsertMany, readyFromTasks, List.filter_cons, h0, h0e,
        List.append_assoc]
    · have h0e : ¬ t0.inputs = [] := fun he => h0 (by simp [he])
      simp [objsAfterTasks, taskPairs, upsertMany, readyFromTasks, List.filter_cons, h0, h0e,
        List.append_assoc]

theorem applyTaskUpd_nil_ws :
    ∀ (l : List TaskUpdateMsg) (tasks : List (Nat × SchedulerTask))
      (objs : List (Nat × SchedulerDataObject)) (ready fin2 : List Nat)
      (r : List (Nat × SchedulerTask) × List Nat × List Nat),
      applyTaskUpd [] tasks objs ready fin2 l = .ok r → l = []
  | [] => fun _ _ _ _ _ _ => rfl
  | tu :: l => by
    intro tasks objs ready fin2 r h
    exfalso
    by_cases hs : tu.state = TaskState.Finished <;>
      cases hx : lookup tu.id tasks <;>
      simp [applyTaskUpd, hs, hx, lookup] at h

theorem keys_applyObjUpd :
    ∀ (l : List ObjectUpdateMsg) (ws : List (Nat × Int))
      (objs r : List (Nat × SchedulerDataObject)),
      applyObjUpd ws objs l = .ok r → keys r = keys objs
  | [] => by
    intro ws objs r h
    simp [applyObjUpd] at h
    rw [h]
  | ou :: l => by
    intro ws objs r h
    cases hx : lookup ou.id objs with
    | none => simp [applyObjUpd, hx] at h
    | some od =>
      by_cases hg : (ou.placing.all (fun w => (lookup w ws).isSome)
          && ou.availability.all (fun w => (lookup w ws).isSome)) = true
      · have hstep : applyObjUpd ws objs (ou :: l) =
            applyObjUpd ws (upsert ou.id (objUpdApply ou od) objs) l := by
          simp [applyObjUpd, hx, hg]
        rw [hstep] at h
        rw [keys_applyObjUpd l ws (upsert ou.id (objUpdApply ou od) objs) r h,
          keys_upsert_isSome ou.id (objUpdApply ou od) objs (by simp [hx])]
      · simp [applyObjUpd, hx, hg] at h

/-- An update delta registering one worker. -/
def c8msgW : UpdateMessage := ⟨[(0, 1)], none, [], [], [], []⟩

/-- The mirror after applying `c8msgW` to a fresh scheduler. -/
def c8s1 : SchedulerState := ⟨[(0, 1)], none, [], [], []⟩

/-- Counterexample to C8 as stated: a delta whose `new_workers` field is
nonempty applies cleanly to a fresh mirror but raises
"Registering already registered worker" when applied a second time -
the second application fails instead of being equivalent to the first. -/
theorem process_update_claim_counterexample :
    processUpdate initialState c8msgW = .ok (c8s1, [])
    ∧ processUpdate c8s1 c8msgW
        = .error "Registering already registered worker 0" :=
  ⟨rfl, rfl⟩

/-- C8 (amended to deltas without `new_workers`): if an update message
registers no new workers and its first application to a fresh mirror
succeeds, then applying the identical message a second time also succeeds
and returns exactly the same mirror state and the same reply: the
registration loops replay the very same dict entries, the task updates
are vacuous (a nonempty `tasks_update` cannot succeed with no workers
registered), and the object updates repeat identically. -/
theorem process_update_idempotent (msg : UpdateMessage) (s1 : SchedulerState)
    (r1 : List TaskAssignRecord) (hw : msg.newWorkers = [])
    (h1 : processUpdate initialState msg = .ok (s1, r1)) :
    processUpdate s1 msg = .ok (s1, r1) := by
  simp only [processUpdate, hw, initialState, addWorkers] at h1
  cases hat : addTasks (addObjects [] msg.newObjects) [] [] msg.newTasks with
  | error e =>
    rw [hat] at h1
    simp at h1
  | ok trip =>
    obtain ⟨objs2, tasks1, ready1⟩ := trip
    rw [hat] at h1
    dsimp only at h1
    cases hatu : applyTaskUpd [] tasks1 objs2 ready1 [] msg.tasksUpdate with
    | error e =>
      rw [hatu] at h1
      simp at h1
    | ok trip2 =>
      obtain ⟨tasks2, ready2, fin2⟩ := trip2
      have htuemp : msg.tasksUpdate = [] :=
        applyTaskUpd_nil_ws msg.tasksUpdate tasks1 objs2 ready1 [] (tasks2, ready2, fin2) hatu
      rw [hatu] at h1
      dsimp only at h1
      rw [htuemp] at hatu
      simp only [applyTaskUpd] at hatu
      injection hatu with htr
      injection htr with htasks2 htr2
      injection htr2 with hready2 hfin2
      subst htasks2
      subst hready2
      subst hfin2
      cases hou : applyObjUpd [] objs2 msg.objectsUpdate with
      | error e =>
        rw [hou] at h1
        simp at h1
      | ok objs3 =>
        rw [hou] at h1
        dsimp only at h1
        injection h1 with hpair
        injection hpair with hs hr
        subst hs
        subst hr
        have hpre := addTasks_ok_pre msg.newTasks (addObjects [] msg.newObjects) [] []
          (objs2, tasks1, ready1) hat
        have heq := addTasks_eq msg.newTasks (addObjects [] msg.newObjects) [] [] hpre
        rw [hat] at heq
        injection heq with htrip
        injection htrip with hobjs2 htrip2
        injection htrip2 with htasks1 hready1
        have hko3 : keys objs3 = keys (addObjects [] msg.newObjects) := by
          rw [keys_applyObjUpd msg.objectsUpdate [] objs2 objs3 hou, hobjs2]
          exact keys_objsAfterTasks msg.newTasks (addObjects [] msg.newObjects)
        simp only [processUpdate, hw, addWorkers]
        have hA : addObjects objs3 msg.newObjects = addObjects [] msg.newObjects := by
          have hko3u : keys objs3
              = keys (upsertMany ([] : List (Nat × SchedulerDataObject))
                (msg.newObjects.map (fun o => (o.id, freshObject o)))) := hko3
          exact upsertMany_replay (msg.newObjects.map (fun o => (o.id, freshObject o)))
            objs3 hko3u
        rw [hA]
        have hT : upsertMany tasks1 (taskPairs msg.newTasks) = tasks1 := by
          have hrep := upsertMany_replay (taskPairs msg.newTasks) tasks1 (by rw [htasks1])
          rw [hrep, ← htasks1]
        have hB : addTasks (addObjects [] msg.newObjects) tasks1 [] msg.newTasks
            = .ok (objs2, tasks1, [] ++ readyFromTasks msg.newTasks) := by
          rw [addTasks_eq msg.newTasks (addObjects [] msg.newObjects) tasks1 [] hpre,
            ← hobjs2, hT]
        rw [hB]
        dsimp only
        rw [htuemp]
        simp only [applyTaskUpd]
        rw [hou]
        dsimp only
        cases msg.networkBandwidth <;> rfl

/-- Witness for C8: a delta registering one object and one task (no new
workers) is idempotent on the fresh mirror. -/
def c8msg : UpdateMessage := ⟨[], some 7, [⟨0, some 4, none⟩], [⟨3, [0], [], none, 1⟩], [], []⟩

/-- The mirror after applying `c8msg` once (and, per the theorem, after
applying it twice). -/
def c8s : SchedulerState :=
  ⟨[], some 7,
    [(3, ⟨3, [0], [], none, 1, TaskState.Waiting, none, none, 1⟩)],
    [(0, ⟨0, some 4, none, none, [3], [], [], []⟩)],
    []⟩

/-- Witness for the amended C8 at a concrete delta. -/
theorem process_update_idempotent_witness :
    processUpdate c8s c8msg = .ok (c8s, []) :=
  process_update_idempotent c8msg c8s [] rfl rfl

end Estee
